import Mathlib

/-!
# PwnedPasswordsSpeedChallenge (C++ client): embedding and properties

A shallow embedding of the query pipeline of `src/c++/src`:

* `digest.hpp`   : `Digest`, `get_hexdigest`, `extract_hex_prefix`, `extract_hex_suffix`
* `cache.hpp`    : `HexCache`, `NullCache`, `Cache`
* `request.cpp`  : `to_range_results_values`, `request_range`
* `main.cpp`     : the chunk partition of `main`, the loop of `get_passwords_count`

Conventions.  `char` is `Char`, `std::string` and `std::array<char, N>` are `List Char`,
`int` is `Int`, `std::size_t` is `Nat` (reduced modulo `2 ^ 64` where a conversion or a wrap
can be reached from an input).  `std::map` and `boost::container::flat_map` are association
lists read through `map_find` (`find`) and written through `map_assign` (`operator[] =`).
The two library functions the code calls and that are not part of the repository are taken
from their documentation: `SHA1` (OpenSSL) is a parameter, `std::stoi` is `stoi`.
-/

namespace PwnedPasswords

/-! ## Containers -/

/-- The member function `find` of `std::map` and `flat_map`: the value bound to `k`, if any. -/
def map_find {K V : Type} [DecidableEq K] : List (K × V) → K → Option V
  | [], _ => none
  | (k', v) :: rest, k => if k' = k then some v else map_find rest k

/-- The assignment `m[k] = v` of `std::map`: the binding of `k` is replaced when there is one,
and a new binding is added otherwise. -/
def map_assign {K V : Type} [DecidableEq K] : List (K × V) → K → V → List (K × V)
  | [], k, v => [(k, v)]
  | (k', v') :: rest, k, v =>
    if k' = k then (k, v) :: rest else (k', v') :: map_assign rest k v

/-- The keys of a map, in the order of the association list. -/
def map_keys {K V : Type} (m : List (K × V)) : List K := m.map Prod.fst

/-! ## digest.hpp -/

/-- The constant `SHA_DIGEST_LENGTH` of OpenSSL. -/
def SHA_DIGEST_LENGTH : Nat := 20

/-- The type `digest_t`, `std::array<unsigned char, SHA_DIGEST_LENGTH>`. -/
abbrev digest_t := { l : List (Fin 256) // l.length = SHA_DIGEST_LENGTH }

/-- The type `hexdigest_t`, `std::array<char, 40>`; the length is a theorem about
`get_hexdigest`. -/
abbrev hexdigest_t := List Char

/-- The type `hexprefix_t`, `std::array<char, 5>`. -/
abbrev hexprefix_t := List Char

/-- The type `hexsuffix_t`, `std::array<char, 35>`. -/
abbrev hexsuffix_t := List Char

/-- One upper-case hexadecimal digit, as `fmt` prints it for the presentation type `X`. -/
def hex_upper (n : Nat) : Char :=
  if n < 10 then Char.ofNat (48 + n) else Char.ofNat (55 + n)

/-- The format `{:02X}` applied to a byte: two upper-case hexadecimal digits. -/
def format_02X (b : Fin 256) : List Char := [hex_upper (b.val / 16), hex_upper (b.val % 16)]

/-- The loop of `Digest::get_hexdigest`: every byte appended as two hexadecimal digits. -/
def get_hexdigest (digest : digest_t) : hexdigest_t := digest.val.flatMap format_02X

/-- The class `Digest` with its two members. -/
structure Digest where
  m_digest : digest_t
  m_hexdigest : hexdigest_t
deriving DecidableEq

/-- The function `Digest::get_digest`: the call of OpenSSL's `SHA1` on the bytes of the
password. -/
def get_digest (SHA1 : List Char → digest_t) (password : List Char) : digest_t := SHA1 password

/-- The constructor `Digest::Digest(std::string_view password)`. -/
def Digest.make (SHA1 : List Char → digest_t) (password : List Char) : Digest :=
  { m_digest := get_digest SHA1 password
    m_hexdigest := get_hexdigest (get_digest SHA1 password) }

/-- The accessor `Digest::hexdigest`. -/
def Digest.hexdigest (d : Digest) : hexdigest_t := d.m_hexdigest

/-- The function `Digest::extract_hex_prefix`: the characters `std::copy` writes to the output
iterator, the range `[begin, begin + 5)` of the hex digest. -/
def Digest.extract_hex_prefix (d : Digest) : hexprefix_t := d.m_hexdigest.take 5

/-- The function `Digest::extract_hex_suffix`: the characters `std::copy` writes to the output
iterator, the range `[begin + 5, end)` of the hex digest. -/
def Digest.extract_hex_suffix (d : Digest) : hexsuffix_t := d.m_hexdigest.drop 5

/-! ## request.hpp, cache.hpp -/

/-- The type `RangeResults::values_t`, `std::map<hexsuffix_t, int>`. -/
abbrev values_t := List (hexsuffix_t × Int)

/-- The struct `RangeResults`. -/
structure RangeResults where
  values : values_t
  body_size : Nat
deriving DecidableEq

/-- The value-initialised `RangeResults{}`. -/
def RangeResults.empty : RangeResults := { values := [], body_size := 0 }

/-- The implicit conversion from `int` to `std::size_t` (64 bits). -/
def size_t_of_int (i : Int) : Nat := (i % 2 ^ 64).toNat

/-- The enumeration `Cache::EntryStatus`. -/
inductive EntryStatus where
  | ValueCached
  | PrefixCached
  | Uncached
deriving DecidableEq, Repr

/-- The class `HexCache`: the map and the two counters inherited from `Cache`. -/
structure HexCache where
  m_cache : List (hexprefix_t × List (hexsuffix_t × Int))
  m_prefix_hits : Nat
  m_full_hits : Nat
deriving DecidableEq

/-- A freshly constructed `HexCache`. -/
def HexCache.empty : HexCache := { m_cache := [], m_prefix_hits := 0, m_full_hits := 0 }

/-- The function `HexCache::get`.  The first component is the returned pair, the second the
cache with its `mutable` counters updated. -/
def HexCache.get (c : HexCache) (digest : Digest) : (EntryStatus × Nat) × HexCache :=
  let pfx := ( Digest.extract_hex_prefix digest)
  let suffix := digest.extract_hex_suffix
  match map_find c.m_cache pfx with
  | none => ((EntryStatus.Uncached, 0), c)
  | some prefix_values =>
    let c1 := { c with m_prefix_hits := c.m_prefix_hits + 1 }
    match map_find prefix_values suffix with
    | none => ((EntryStatus.PrefixCached, 0), c1)
    | some value =>
      ((EntryStatus.ValueCached, size_t_of_int value),
        { c1 with m_full_hits := c1.m_full_hits + 1 })

/-- The function `HexCache::put`: the `flat_map` built from the whole range of `values` is
assigned to `m_cache[prefix]`. -/
def HexCache.put (c : HexCache) (pfx : hexprefix_t) (values : values_t) : HexCache :=
  let flat_values : List (hexsuffix_t × Int) := values
  { c with m_cache := map_assign c.m_cache pfx flat_values }

/-- The class `NullCache`: only the counters inherited from `Cache`. -/
structure NullCache where
  m_prefix_hits : Nat
  m_full_hits : Nat
deriving DecidableEq

/-- The function `NullCache::get`. -/
def NullCache.get (c : NullCache) (_digest : Digest) : (EntryStatus × Nat) × NullCache :=
  ((EntryStatus.Uncached, 0), c)

/-- The function `NullCache::put`. -/
def NullCache.put (c : NullCache) (_pfx : hexprefix_t) (_results : values_t) : NullCache := c

/-- The abstract class `Cache` with its two implementations. -/
inductive Cache where
  | hex (c : HexCache)
  | null (c : NullCache)
deriving DecidableEq

/-- The virtual call `cache.get(digest)`. -/
def Cache.get : Cache → Digest → (EntryStatus × Nat) × Cache
  | Cache.hex c, d => ((c.get d).1, Cache.hex (c.get d).2)
  | Cache.null c, d => ((c.get d).1, Cache.null (c.get d).2)

/-- The virtual call `cache.put(prefix, results)`. -/
def Cache.put : Cache → hexprefix_t → values_t → Cache
  | Cache.hex c, p, v => Cache.hex (c.put p v)
  | Cache.null c, p, v => Cache.null (c.put p v)

/-- One operation on a `HexCache`, for histories of calls. -/
inductive CacheOp where
  | get (d : Digest)
  | put (pfx : hexprefix_t) (values : values_t)

/-- The prefixes a history of calls has stored. -/
def put_prefixes : List CacheOp → List hexprefix_t
  | [] => []
  | CacheOp.get _ :: rest => put_prefixes rest
  | CacheOp.put p _ :: rest => p :: put_prefixes rest

/-- The cache after a history of calls. -/
def HexCache.apply_ops (c : HexCache) : List CacheOp → HexCache
  | [] => c
  | CacheOp.get d :: rest => HexCache.apply_ops (c.get d).2 rest
  | CacheOp.put p v :: rest => HexCache.apply_ops (c.put p v) rest

/-! ## main.cpp: the chunk partition of `main` -/

/-- Addition of two `std::size_t` values (64 bits, wrapping). -/
def size_t_add (a b : Nat) : Nat := (a + b) % 2 ^ 64

/-- Subtraction of two `std::size_t` values (64 bits, wrapping). -/
def size_t_sub (a b : Nat) : Nat := (a + 2 ^ 64 - b) % 2 ^ 64

/-- Multiplication of two `std::size_t` values (64 bits, wrapping). -/
def size_t_mul (a b : Nat) : Nat := (a * b) % 2 ^ 64

/-- The initialiser of `chunk_size` in `main`:
`(passwords.size() + options.n_threads - 1) / options.n_threads`. -/
def chunk_size (N T : Nat) : Nat := size_t_sub (size_t_add N T) 1 / T

/-- The partition loop of `main`, with `todo` iterations left, loop counter `i` and the
current `remainder`.  Every iteration records the pair `(offset, count)` it passes to
`subspan` (the size of the span it returns is `count`) and subtracts that size from
`remainder`.  The result is the list of the pairs and the final `remainder`. -/
def main_chunks_loop (chunk_size : Nat) : Nat → Nat → Nat → List (Nat × Nat) × Nat
  | 0, _, remainder => ([], remainder)
  | todo + 1, i, remainder =>
    let offset := size_t_mul chunk_size i
    let count := min chunk_size remainder
    let rest := main_chunks_loop chunk_size todo (i + 1) (size_t_sub remainder count)
    ((offset, count) :: rest.1, rest.2)

/-- The chunks `main` computes for `N` records and `T` threads, and the value of `remainder`
the final `assert` reads. -/
def main_chunks (N T : Nat) : List (Nat × Nat) × Nat :=
  main_chunks_loop (chunk_size N T) T 0 N

/-- The chunk handed to thread `i`. -/
def chunk_of (N T i : Nat) : Nat × Nat := (main_chunks N T).1.getD i (0, 0)

/-- The record index `idx` lies in the chunk `(offset, count)`. -/
def in_chunk (c : Nat × Nat) (idx : Nat) : Prop := c.1 ≤ idx ∧ idx < c.1 + c.2

instance (c : Nat × Nat) (idx : Nat) : Decidable (in_chunk c idx) := by
  unfold in_chunk
  exact inferInstance

/-! ## request.cpp: `to_range_results_values` -/

/-- The ways a call can leave its function other than by returning: the two exceptions
`std::stoi` throws, undefined behaviour (a write outside a buffer), and a failed `assert`.
Nothing in the repository catches an exception, so each of them ends the execution of the
function that is being modelled. -/
inductive Abort where
  | invalid_argument
  | out_of_range
  | undefined_behaviour
  | assertion_failed
deriving DecidableEq, Repr

/-- The character `'\0'`. -/
def NUL : Char := Char.ofNat 0

/-- The function `isspace` in the "C" locale. -/
def isspace (c : Char) : Bool :=
  c = ' ' || c = '\t' || c = '\n' || c = Char.ofNat 11 || c = Char.ofNat 12 || c = '\r'

/-- The value of a decimal digit character. -/
def digit_value (c : Char) : Nat := c.toNat - 48

/-- The constant `INT_MAX` (32-bit `int`). -/
def INT_MAX : Int := 2147483647

/-- The constant `INT_MIN` (32-bit `int`). -/
def INT_MIN : Int := -2147483648

/-- The library function `std::stoi(str)` (base 10), from its documentation: `strtol` reads
the C string of `str` (the characters before the first `'\0'`), skips white space, takes an
optional sign and the longest run of decimal digits; `std::invalid_argument` is thrown when
there is no digit, `std::out_of_range` when the value is not an `int`. -/
def stoi (str : List Char) : Except Abort Int :=
  let c_str := str.takeWhile (fun c => c != NUL)
  let s := c_str.dropWhile isspace
  let negative : Bool := s.head? = some '-'
  let unsigned_part := match s with
    | '-' :: t => t
    | '+' :: t => t
    | _ => s
  let digits := unsigned_part.takeWhile Char.isDigit
  if digits = [] then Except.error Abort.invalid_argument
  else
    let magnitude : Nat := digits.foldl (fun acc c => 10 * acc + digit_value c) 0
    let value : Int := if negative then - (magnitude : Int) else (magnitude : Int)
    if value < INT_MIN ∨ INT_MAX < value then Except.error Abort.out_of_range
    else Except.ok value

/-- The assignment `a[pos] = c` on a `std::array`: defined only inside the array. -/
def array_write (a : List Char) (pos : Nat) (c : Char) : Except Abort (List Char) :=
  if pos < a.length then Except.ok (a.set pos c) else Except.error Abort.undefined_behaviour

/-- The assignment `s[pos] = c` on a `std::string`: defined inside the string, and at
`pos == size()` only when the terminator is overwritten with `'\0'` again. -/
def string_write (s : List Char) (pos : Nat) (c : Char) : Except Abort (List Char) :=
  if pos < s.length then Except.ok (s.set pos c)
  else if pos = s.length ∧ c = NUL then Except.ok s
  else Except.error Abort.undefined_behaviour

/-- The local variables of `to_range_results_values`. -/
structure ParseState where
  range_values : values_t
  suffix_buffer : List Char
  count_buffer : List Char
  pos : Nat
  parse_count : Bool
deriving DecidableEq

/-- The two statements `count_buffer[pos] = 0; range_values[suffix_buffer] =
std::stoi(count_buffer);` that close a line. -/
def store_line (st : ParseState) : Except Abort ParseState := do
  let cb ← string_write st.count_buffer st.pos NUL
  let n ← stoi cb
  pure { st with count_buffer := cb,
                 range_values := map_assign st.range_values st.suffix_buffer n }

/-- The body of the inner loop of `to_range_results_values` for one character `c`. -/
def parse_char (st : ParseState) (c : Char) : Except Abort ParseState :=
  if c = '\n' then do
    let st1 ← store_line st
    pure { st1 with pos := 0, parse_count := false }
  else if c = ':' then
    pure { st with pos := 0, parse_count := true }
  else if st.parse_count then do
    let cb ← string_write st.count_buffer st.pos c
    pure { st with count_buffer := cb, pos := st.pos + 1 }
  else do
    let sb ← array_write st.suffix_buffer st.pos c
    pure { st with suffix_buffer := sb, pos := st.pos + 1 }

/-- The function `to_range_results_values`.  The body of the response is the sequence of
buffers `response.body().cdata()` yields; `uninit` is the content the uninitialised
`suffix_buffer` starts with. -/
def to_range_results_values (uninit : List Char) (body : List (List Char)) :
    Except Abort values_t := do
  let st0 : ParseState :=
    { range_values := [], suffix_buffer := uninit, count_buffer := List.replicate 10 NUL,
      pos := 0, parse_count := false }
  let st ← body.foldlM (fun st buffer => buffer.foldlM parse_char st) st0
  if st.pos ≠ 0 then do
    let st1 ← store_line st
    pure st1.range_values
  else
    pure st.range_values

/-! ### The response grammar of the specification -/

/-- The struct `Password`. -/
structure Password where
  value : List Char
  count : Nat
  checked : Bool
deriving DecidableEq

/-- The counters of the class `Progress` (the atomic members the worker loop updates). -/
structure Progress where
  m_passwords_checked : Nat
  m_bytes_downloaded : Nat
  m_requests_timed_out : Nat
  m_requests_errored : Nat
  m_connections_reset : Nat
deriving DecidableEq

/-- The function `Progress::password_checked`. -/
def Progress.password_checked (p : Progress) (bytes_downloaded : Nat) : Progress :=
  { p with m_passwords_checked := p.m_passwords_checked + 1
           m_bytes_downloaded := p.m_bytes_downloaded + bytes_downloaded }

/-- The function `Progress::add_request_error`. -/
def Progress.add_request_error (p : Progress) : Progress :=
  { p with m_requests_errored := p.m_requests_errored + 1 }

/-- The function `Progress::add_request_time_out`. -/
def Progress.add_request_time_out (p : Progress) : Progress :=
  { p with m_requests_timed_out := p.m_requests_timed_out + 1 }

/-- The function `Progress::add_connection_reset`. -/
def Progress.add_connection_reset (p : Progress) : Progress :=
  { p with m_connections_reset := p.m_connections_reset + 1 }

/-! ## request.cpp: `request_range` -/

/-- The values of `beast::error_code` the code tells apart: `beast::error::timeout`,
`ssl::error::stream_truncated`, `io::error::eof`, and every other failure.  A variable `ec`
is an `Option error_code`, `none` for success. -/
inductive error_code where
  | timeout
  | stream_truncated
  | eof
  | other
deriving DecidableEq, Repr

/-- What `request_range` reads of an `http::response<http::dynamic_body>`: the status, the
value of the `Connection` field, and the buffers of the body. -/
structure Response where
  result_int : Nat
  connection : List Char
  body : List (List Char)
deriving DecidableEq

/-- The value `response.payload_size().value()`: the size of the body. -/
def Response.payload_size (r : Response) : Nat := r.body.flatten.length

/-- What the network does during one call of `request_range`: the outcome of
`async_write`, the outcome of `async_read` and the response it delivers, and the content
the uninitialised `suffix_buffer` of the parser starts with. -/
structure Exchange where
  write_ec : Option error_code
  read_ec : Option error_code
  response : Response
  uninit : List Char
deriving DecidableEq

/-- The function `request_range`.  The result is the returned tuple together with the value
the call leaves in `ec`; an exception of the parser leaves the function. -/
def request_range (x : Exchange) :
    Except Abort ((RangeResults × Bool) × Option error_code) :=
  match x.write_ec with
  | some e => Except.ok ((RangeResults.empty, true), some e)
  | none =>
    match x.read_ec with
    | some e => Except.ok ((RangeResults.empty, true), some e)
    | none =>
      if x.response.result_int ≠ 200 then Except.ok ((RangeResults.empty, true), none)
      else
        let close_connection : Bool := decide (x.response.connection = "close".toList)
        match to_range_results_values x.uninit x.response.body with
        | Except.error a => Except.error a
        | Except.ok values =>
          Except.ok (({ values := values, body_size := x.response.payload_size },
            close_connection), none)

/-! ## main.cpp: `get_passwords_count` -/

/-- The network as the worker sees it: the outcome of the `n`-th connection attempt
(`async_connect`, `async_handshake`), of the `n`-th `async_shutdown`, of the `n`-th call of
`request_range` for a target, and the value `progress.interrupted()` has at the top of the
iteration that finds the cursor at `n`. -/
structure Network where
  connect : Nat → Option error_code × Option error_code
  shutdown : Nat → Option error_code
  exchange : Nat → List Char → Exchange
  interrupted : Nat → Bool

/-- The observable actions of a worker, recorded for the statements about them: the targets
of the calls of `request_range`, the calls of `cache.put`, and the numbers of calls of
`get_stream` and `close_stream`. -/
structure Trace where
  requests : List (List Char)
  puts : List (hexprefix_t × values_t)
  opens : Nat
  closes : Nat
deriving DecidableEq

/-- The trace of a worker that has not acted yet. -/
def Trace.empty : Trace := { requests := [], puts := [], opens := 0, closes := 0 }

/-- The variables of `get_passwords_count`: the span of records, the shared cursor, the
progress counters and the cache it gets by reference, its locals `ec` and `target`, and the
trace of its actions. -/
structure LoopState where
  passwords : List Password
  current_password_index : Nat
  progress : Progress
  cache : Cache
  ec : Option error_code
  target : List Char
  trace : Trace
deriving DecidableEq

/-- The lambda `get_stream`: in a dry run the stream is created and control is yielded; else
the connection is made and the TLS handshake follows when it succeeded.  The result is the
value left in `ec`. -/
def get_stream (dry_run : Bool) (attempt : Option error_code × Option error_code)
    (ec : Option error_code) : Option error_code :=
  if !dry_run then
    match attempt.1 with
    | some e => some e
    | none => attempt.2
  else ec

/-- The lambda `close_stream`: the result of `async_shutdown` is stored in `ec`, and cleared
when it is `stream_truncated` or `eof`; a dry run only yields. -/
def close_stream (dry_run : Bool) (shutdown_ec : Option error_code)
    (ec : Option error_code) : Option error_code :=
  if !dry_run then
    if shutdown_ec = some error_code.stream_truncated then none
    else if shutdown_ec = some error_code.eof then none
    else shutdown_ec
  else ec

/-- The end of an iteration: `password.count = count; password.checked = true;
progress.password_checked(body_size);`. -/
def record_result (st : LoopState) (idx count body_size : Nat) : LoopState :=
  { st with
    passwords := st.passwords.modify (fun pw => { pw with count := count, checked := true }) idx
    progress := st.progress.password_checked body_size }

/-- The statement `digest.extract_hex_prefix(std::next(target.end(), -5))`: the last five
characters of `target` are overwritten. -/
def write_target (target : List Char) (pfx : hexprefix_t) : List Char :=
  target.take (target.length - 5) ++ pfx

/-- The lambda that resolves `count` from the response: the value bound to the suffix, `0`
when there is none, converted to `std::size_t` by the assignment. -/
def count_of (values : values_t) (suffix : hexsuffix_t) : Nat :=
  size_t_of_int (match map_find values suffix with
    | none => 0
    | some v => v)

/-- The statements of the loop body after `request_range` has returned `range_results`,
`close_connection` and `ec`: the failure counters or the cache update, the replacement of
the connection, and the resolution of `count` and `body_size`; then the end of the
iteration. -/
def after_exchange (net : Network) (st : LoopState) (idx : Nat) (pfx : hexprefix_t)
    (suffix : hexsuffix_t) (range_results : RangeResults) (close_connection : Bool)
    (ec : Option error_code) : LoopState :=
  let st1 : LoopState :=
    match ec with
    | some e =>
      if e = error_code.timeout then
        { st with ec := ec, progress := st.progress.add_request_time_out }
      else
        { st with ec := ec, progress := st.progress.add_request_error }
    | none =>
      { st with ec := ec, cache := st.cache.put pfx range_results.values
                trace := { st.trace with puts := st.trace.puts ++ [(pfx, range_results.values)] } }
  let st2 : LoopState :=
    if close_connection then
      let ec1 := close_stream false (net.shutdown st1.trace.closes) st1.ec
      let ec2 := get_stream false (net.connect st1.trace.opens) ec1
      { st1 with
        progress := st1.progress.add_connection_reset
        ec := ec2
        trace := { st1.trace with closes := st1.trace.closes + 1, opens := st1.trace.opens + 1 } }
    else st1
  record_result st2 idx (count_of range_results.values suffix) range_results.body_size

/-- How one pass through the body of `while (true)` ends: the loop goes on, the loop is left
by `break`, or an exception (or undefined behaviour) leaves `get_passwords_count`; each with
the state reached. -/
inductive Step where
  | next (st : LoopState)
  | done (st : LoopState)
  | thrown (a : Abort) (st : LoopState)
deriving DecidableEq

/-- The state a `Step` carries. -/
def Step.state : Step → LoopState
  | Step.next st => st
  | Step.done st => st
  | Step.thrown _ st => st

/-- One pass through the body of the `while (true)` loop of `get_passwords_count`. -/
def loop_body (SHA1 : List Char → digest_t) (dry_run : Bool) (net : Network)
    (st : LoopState) : Step :=
  if net.interrupted st.current_password_index then Step.done st
  else if st.current_password_index = st.passwords.length then Step.done st
  else
    match st.passwords.get? st.current_password_index with
    | none => Step.thrown Abort.assertion_failed st
    | some password =>
      let idx := st.current_password_index
      let digest := Digest.make SHA1 password.value
      let looked := st.cache.get digest
      let st1 : LoopState := { st with current_password_index := idx + 1, cache := looked.2 }
      if looked.1.1 = EntryStatus.ValueCached ∨ looked.1.1 = EntryStatus.PrefixCached then
        Step.next (record_result st1 idx looked.1.2 0)
      else
        let pfx := Digest.extract_hex_prefix digest
        let suffix := digest.extract_hex_suffix
        let st2 : LoopState := { st1 with target := write_target st1.target pfx }
        if !dry_run then
          let st3 : LoopState :=
            { st2 with trace := { st2.trace with requests := st2.trace.requests ++ [st2.target] } }
          match request_range (net.exchange st2.trace.requests.length st2.target) with
          | Except.error a => Step.thrown a st3
          | Except.ok r => Step.next (after_exchange net st3 idx pfx suffix r.1.1 r.1.2 r.2)
        else
          Step.next (record_result st2 idx 0 0)

/-- The loop `while (true)`, run for at most `fuel` passes. -/
def run_loop (SHA1 : List Char → digest_t) (dry_run : Bool) (net : Network) :
    Nat → LoopState → Step
  | 0, st => Step.next st
  | fuel + 1, st =>
    match loop_body SHA1 dry_run net st with
    | Step.next st1 => run_loop SHA1 dry_run net fuel st1
    | r => r

/-- The variables of `get_passwords_count` when it reaches its loop: the arguments, `ec` as
the first `get_stream` left it, `target` with its placeholder, and one connection opened. -/
def entry_state (passwords : List Password) (current_password_index : Nat)
    (progress : Progress) (cache : Cache) (ec : Option error_code) : LoopState :=
  { passwords := passwords, current_password_index := current_password_index,
    progress := progress, cache := cache, ec := ec, target := "/range/XXXXX".toList,
    trace := { requests := [], puts := [], opens := 1, closes := 0 } }

/-- The function `get_passwords_count`, run to its end by one worker that has the records,
the cursor, the counters and the cache for itself.  The connection is opened first, and the
function returns at once when that fails; else the loop runs (a pass either stops the loop or
advances the cursor, so `passwords.length + 1` passes are enough, see
`get_passwords_count_returns`) and the connection is closed. -/
def get_passwords_count (SHA1 : List Char → digest_t) (dry_run : Bool) (net : Network)
    (passwords : List Password) (current_password_index : Nat) (progress : Progress)
    (cache : Cache) : Step :=
  let ec0 := get_stream dry_run (net.connect 0) none
  let st0 := entry_state passwords current_password_index progress cache ec0
  if ec0 ≠ none then Step.done st0
  else
    match run_loop SHA1 dry_run net (passwords.length + 1) st0 with
    | Step.thrown a st => Step.thrown a st
    | r =>
      let st := r.state
      Step.done { st with
        ec := close_stream dry_run (net.shutdown st.trace.closes) st.ec
        trace := { st.trace with closes := st.trace.closes + 1 } }

/-- The state in which a pass that misses the cache calls `request_range` for the record
`pw` it has claimed: the cursor is advanced, the counters of the cache are those after the
lookup, `target` holds the prefix, and the request is on the trace. -/
def at_request (SHA1 : List Char → digest_t) (st : LoopState) (pw : Password) : LoopState :=
  { st with
    current_password_index := st.current_password_index + 1
    cache := (st.cache.get (Digest.make SHA1 pw.value)).2
    target := write_target st.target ( Digest.extract_hex_prefix (Digest.make SHA1 pw.value))
    trace := { st.trace with requests := st.trace.requests ++
      [write_target st.target ( Digest.extract_hex_prefix (Digest.make SHA1 pw.value))] } }

/-- The exchange the network performs for the request of `at_request`. -/
def exchange_for (SHA1 : List Char → digest_t) (net : Network) (st : LoopState)
    (pw : Password) : Exchange :=
  net.exchange st.trace.requests.length
    (write_target st.target ( Digest.extract_hex_prefix (Digest.make SHA1 pw.value)))

/-- A network none of whose exchanges ends with a transport error. -/
def no_transport_error (net : Network) : Prop :=
  ∀ n target, (net.exchange n target).write_ec = none ∧ (net.exchange n target).read_ec = none

/-- The prefixes a worker has sent to the server: the characters that follow `/range/` in
the targets of its requests. -/
def sent_prefixes (tr : Trace) : List (List Char) := tr.requests.map (fun t => t.drop 7)

/-- The invariant of a sequential worker on a `HexCache`: `target` has its twelve
characters, every prefix sent so far has an entry in the cache, and no prefix was sent
twice. -/
def sent_once (st : LoopState) : Prop :=
  st.target.length = 12 ∧
  (∃ c : HexCache, st.cache = Cache.hex c ∧
    ∀ p ∈ sent_prefixes st.trace, map_find c.m_cache p ≠ none) ∧
  (sent_prefixes st.trace).Nodup

/-! ## main.cpp: the worker loops of one thread in a dry run

`password_counting_thread` spawns `workers` coroutines that run `get_passwords_count` on one
`io_context`, served by the one thread that calls `ioc.run()`.  A coroutine keeps the thread
until it suspends; in a dry run the suspension points are the three calls `ioc.post(yield)`
(in `get_stream`, in the loop body, in `close_stream`).  The model below makes every choice
of the coroutine that is resumed next possible; `progress.interrupted()` is `false`
throughout. -/

/-- Where a worker loop stands: not started; suspended in the `ioc.post(yield)` of
`get_stream`; running at the top of `while (true)`; suspended in the `ioc.post(yield)` of
the loop body with the record `idx` claimed; suspended in the `ioc.post(yield)` of
`close_stream`; returned. -/
inductive Place where
  | spawned
  | in_get_stream
  | loop_top
  | in_post (idx : Nat)
  | in_close_stream
  | returned
deriving DecidableEq, Repr

/-- The state of one thread of a dry run: the chunk of records, the claim cursor, the
counters and the cache its worker loops share, the place of every worker loop, and the worker
that holds the thread, if one does.  `claims` and `writes` record, in order, which worker
claimed which index and which records were written. -/
structure UnitState where
  passwords : List Password
  current_password_index : Nat
  progress : Progress
  cache : Cache
  workers : List Place
  running : Option Nat
  claims : List (Nat × Nat)
  writes : List Nat
deriving DecidableEq

/-- The state in which `password_counting_thread` has spawned its `W` worker loops. -/
def unit_start (passwords : List Password) (progress : Progress) (cache : Cache) (W : Nat) :
    UnitState :=
  { passwords := passwords, current_password_index := 0, progress := progress, cache := cache,
    workers := List.replicate W Place.spawned, running := none, claims := [], writes := [] }

/-- The end of an iteration in the state of the thread: `password.count = count;
password.checked = true; progress.password_checked(body_size);` for the record `idx`. -/
def unit_record (s : UnitState) (idx count body_size : Nat) : UnitState :=
  { s with
    passwords := s.passwords.modify (fun pw => { pw with count := count, checked := true }) idx
    progress := s.progress.password_checked body_size
    writes := s.writes ++ [idx] }

/-- The worker `w`, suspended at `place`, is resumed and runs to its next suspension point
or to the top of the loop. -/
def resume (s : UnitState) (w : Nat) : Place → Option UnitState
  | Place.spawned => some { s with workers := s.workers.set w Place.in_get_stream }
  | Place.in_get_stream =>
    some { s with workers := s.workers.set w Place.loop_top, running := some w }
  | Place.in_post idx =>
    some { unit_record s idx 0 0 with
      workers := s.workers.set w Place.loop_top, running := some w }
  | Place.in_close_stream => some { s with workers := s.workers.set w Place.returned }
  | Place.loop_top => none
  | Place.returned => none

/-- The worker `w`, which holds the thread at the top of `while (true)`, runs one pass of the
loop body of a dry run up to its next suspension point: it leaves the loop when the cursor is
at the end (and suspends in `close_stream`); else it reads the cursor and increments it,
looks the digest up, and either resolves the record from the cache and stays at the top of the
loop, or suspends in `ioc.post(yield)` with the record claimed. -/
def loop_top_step (SHA1 : List Char → digest_t) (s : UnitState) (w : Nat) :
    Option UnitState :=
  if s.current_password_index = s.passwords.length then
    some { s with workers := s.workers.set w Place.in_close_stream, running := none }
  else
    match s.passwords[s.current_password_index]? with
    | none => none
    | some password =>
      let idx := s.current_password_index
      let looked := s.cache.get (Digest.make SHA1 password.value)
      let s1 : UnitState :=
        { s with current_password_index := idx + 1, cache := looked.2
                 claims := s.claims ++ [(w, idx)] }
      if looked.1.1 = EntryStatus.ValueCached ∨ looked.1.1 = EntryStatus.PrefixCached then
        some (unit_record s1 idx looked.1.2 0)
      else
        some { s1 with workers := s1.workers.set w (Place.in_post idx), running := none }

/-- One scheduling step of the thread: the worker that holds the thread goes on; when no
worker holds it, any worker that is suspended may be resumed.  The result is `none` when the
choice `w` is not possible. -/
def unit_step (SHA1 : List Char → digest_t) (s : UnitState) (w : Nat) : Option UnitState :=
  match s.running with
  | some r =>
    if r = w ∧ s.workers[w]? = some Place.loop_top then loop_top_step SHA1 s w else none
  | none =>
    match s.workers[w]? with
    | some place => resume s w place
    | none => none

/-- The state a sequence of scheduling choices leads to. -/
def run_schedule (SHA1 : List Char → digest_t) : UnitState → List Nat → Option UnitState
  | s, [] => some s
  | s, w :: rest =>
    match unit_step SHA1 s w with
    | some s1 => run_schedule SHA1 s1 rest
    | none => none

/-- All worker loops have returned. -/
def all_returned (s : UnitState) : Prop := ∀ p ∈ s.workers, p = Place.returned

instance (s : UnitState) : Decidable (all_returned s) := by
  unfold all_returned
  exact inferInstance

/-- The number of scheduling steps a worker at a place can still take by itself. -/
def Place.rank : Place → Nat
  | Place.spawned => 4
  | Place.in_get_stream => 3
  | Place.loop_top => 2
  | Place.in_post _ => 3
  | Place.in_close_stream => 1
  | Place.returned => 0

/-- A bound on the scheduling steps left: the ranks of the workers, and two steps for every
record that is not claimed yet. -/
def steps_left (s : UnitState) : Nat :=
  (s.workers.map Place.rank).sum + 2 * (s.passwords.length - s.current_password_index)

/-- The invariant of the thread with `N` records and `W` worker loops. -/
structure UnitInv (N W : Nat) (s : UnitState) : Prop where
  len : s.passwords.length = N
  workers_len : s.workers.length = W
  cursor_le : s.current_password_index ≤ N
  claimed : s.claims.map Prod.snd = List.range s.current_password_index
  writes_nodup : s.writes.Nodup
  writes_lt : ∀ idx ∈ s.writes, idx < s.current_password_index
  writes_checked : ∀ idx ∈ s.writes, ∃ pw, s.passwords[idx]? = some pw ∧ pw.checked = true
  cover : ∀ idx : Nat, idx < s.current_password_index →
    idx ∈ s.writes ∨ ∃ w : Nat, s.workers[w]? = some (Place.in_post idx)
  pending : ∀ (w idx : Nat), s.workers[w]? = some (Place.in_post idx) →
    idx < s.current_password_index ∧ idx ∉ s.writes
  pending_inj : ∀ (w1 w2 idx : Nat), s.workers[w1]? = some (Place.in_post idx) →
    s.workers[w2]? = some (Place.in_post idx) → w1 = w2
  finished : ∀ w : Nat, s.workers[w]? = some Place.in_close_stream ∨
    s.workers[w]? = some Place.returned → s.current_password_index = N
  holder : ∀ w : Nat, s.workers[w]? = some Place.loop_top ↔ s.running = some w

/-- A digest value for the examples: the bytes 0, 1, ..., 19. -/
def example_digest : Digest :=
  { m_digest := ⟨List.finRange 20 |>.map (fun i => ⟨i.val, by omega⟩), by simp [SHA_DIGEST_LENGTH]⟩
    m_hexdigest := "000102030405060708090A0B0C0D0E0F10111213".toList }

/-- A stand-in for `SHA1` in the examples: the same twenty bytes for every input. -/
def example_SHA1 : List Char → digest_t := fun _ => example_digest.m_digest

/-- Counters that are all zero. -/
def Progress.zero : Progress :=
  { m_passwords_checked := 0, m_bytes_downloaded := 0, m_requests_timed_out := 0,
    m_requests_errored := 0, m_connections_reset := 0 }

/-- A worker at the top of its loop for the examples: two records with the same value, the
cursor at the first one, an empty `HexCache`, and the connection opened. -/
def example_state : LoopState :=
  { passwords := [{ value := "abc".toList, count := 0, checked := false },
      { value := "abc".toList, count := 0, checked := false }]
    current_password_index := 0
    progress := Progress.zero
    cache := Cache.hex HexCache.empty
    ec := none
    target := "/range/XXXXX".toList
    trace := { requests := [], puts := [], opens := 1, closes := 0 } }

/-- A network on which every step succeeds and every request is answered by `answer`. -/
def network_answering (answer : Exchange) : Network :=
  { connect := fun _ => (none, none)
    shutdown := fun _ => none
    exchange := fun _ _ => answer
    interrupted := fun _ => false }

/-- An exchange whose `async_read` times out. -/
def exchange_timeout : Exchange :=
  { write_ec := none, read_ec := some error_code.timeout
    response := { result_int := 0, connection := [], body := [] }
    uninit := List.replicate 35 NUL }

/-- An exchange that ends without error with the status 503 and an empty body. -/
def exchange_503 : Exchange :=
  { write_ec := none, read_ec := none
    response := { result_int := 503, connection := [], body := [] }
    uninit := List.replicate 35 NUL }

/-- An exchange that ends without error with the status 200 and a body whose only line has
an empty count field. -/
def exchange_empty_count : Exchange :=
  { write_ec := none, read_ec := none
    response := { result_int := 200, connection := []
                  body := ["0018A45C4D1DEF81644B54AB7F969B88D65:\n".toList] }
    uninit := List.replicate 35 NUL }

/-- Three records for the examples of a dry run. -/
def example_chunk : List Password :=
  [{ value := "a".toList, count := 0, checked := false },
    { value := "b".toList, count := 0, checked := false },
    { value := "c".toList, count := 0, checked := false }]

/-- A schedule of two worker loops over `example_chunk` in which the loops interleave: the
second loop claims the first record, the first loop the second one, and the second record is
written last. -/
def example_schedule : List Nat := [0, 1, 1, 1, 0, 0, 1, 1, 1, 1, 0, 0, 0, 1]

/-- The state `example_schedule` ends in. -/
def example_final : UnitState :=
  { passwords := [{ value := "a".toList, count := 0, checked := true },
      { value := "b".toList, count := 0, checked := true },
      { value := "c".toList, count := 0, checked := true }]
    current_password_index := 3
    progress := { Progress.zero with m_passwords_checked := 3 }
    cache := Cache.hex HexCache.empty
    workers := [Place.returned, Place.returned]
    running := none
    claims := [(1, 0), (0, 1), (1, 2)]
    writes := [0, 2, 1] }

/-- The precondition of `std::span::subspan(offset, count)` on a span of `size` elements:
`offset <= size()` and `count <= size() - offset`. -/
def subspan_precondition (size offset count : Nat) : Prop :=
  offset ≤ size ∧ count ≤ size - offset

instance (size offset count : Nat) : Decidable (subspan_precondition size offset count) := by
  unfold subspan_precondition
  exact inferInstance

/-- An exchange that ends without error with the status 200, the header `Connection: close`
and a body of one line, for the suffix of `example_digest` with the count 5. -/
def exchange_close : Exchange :=
  { write_ec := none, read_ec := none
    response := { result_int := 200, connection := "close".toList
                  body := ["2030405060708090A0B0C0D0E0F10111213:5\r\n".toList] }
    uninit := List.replicate 35 NUL }

/-! ## password.cpp -/

/-- The function `trim`: the first `erase` removes the characters before the first one that
is not white space, the second the characters after the last one that is not. -/
def trim (s : List Char) : List Char :=
  let s1 := s.dropWhile isspace
  (s1.reverse.dropWhile isspace).reverse

/-- The library function `std::getline(stream, line)` on the characters left in the stream:
it fails when the stream is at its end; else it yields the characters before the first line
feed, and leaves the stream after that line feed (at its end when there is none). -/
def getline : List Char → Option (List Char × List Char)
  | [] => none
  | c :: cs =>
    some ((c :: cs).takeWhile (fun x => x != '\n'), ((c :: cs).dropWhile (fun x => x != '\n')).drop 1)

/-- The loop of `read_passwords`, run for at most `fuel` calls of `std::getline`. -/
def read_passwords_loop : Nat → List Char → List Password → List Password
  | 0, _, passwords => passwords
  | fuel + 1, stream, passwords =>
    match getline stream with
    | none => passwords
    | some (password, rest) =>
      read_passwords_loop fuel rest
        (passwords ++ [{ value := trim password, count := 0, checked := false }])

/-- The function `read_passwords` on the content of the file.  Every call of `std::getline`
that succeeds takes at least one character off the stream, so `file.length + 1` calls reach
the end of the file. -/
def read_passwords (file : List Char) : List Password :=
  read_passwords_loop (file.length + 1) file []

/-- The file whose lines are `lines`, each ended by a line feed. -/
def file_of_lines (lines : List (List Char)) : List Char :=
  lines.flatMap (fun l => l ++ ['\n'])

/-- The record `read_passwords` makes of a line. -/
def record_of_line (line : List Char) : Password :=
  { value := trim line, count := 0, checked := false }

/-! ## request.cpp: the indices `to_range_results_values` writes at -/

/-- A write of the parser into one of its two buffers: the index and the character. -/
inductive BufferWrite where
  | suffix (pos : Nat) (c : Char)
  | count (pos : Nat) (c : Char)
deriving DecidableEq, Repr

/-- The count buffer after the statement `count_buffer[pos] = c`: `cb` is its content as long
as every write so far had defined behaviour, and `none` after a write that had not. -/
def count_buffer_after (cb : Option (List Char)) (pos : Nat) (c : Char) :
    Option (List Char) :=
  match cb with
  | none => none
  | some b =>
    match string_write b pos c with
    | Except.ok b2 => some b2
    | Except.error _ => none

/-- The writes the statements of `to_range_results_values` make on the characters of a body,
in order, with the write after the loops.  `pos` and `parse_count` change as in `parse_char`;
`cb` is the content of `count_buffer` as long as every write so far had defined behaviour
(`none` after a write outside a buffer, or of another character than `'\0'` over the
terminator).  The list ends where the function is left: at the line end at which `std::stoi`
throws, and at the line end that follows a write with undefined behaviour, where the
argument of `std::stoi` is not determined any more. -/
def write_trace : Nat → Bool → Option (List Char) → List Char → List BufferWrite
  | pos, _, _, [] => if pos ≠ 0 then [BufferWrite.count pos NUL] else []
  | pos, parse_count, cb, c :: rest =>
    if c = '\n' then
      BufferWrite.count pos NUL ::
        match count_buffer_after cb pos NUL with
        | none => []
        | some b =>
          match stoi b with
          | Except.ok _ => write_trace 0 false (some b) rest
          | Except.error _ => []
    else if c = ':' then write_trace 0 true cb rest
    else if parse_count then
      BufferWrite.count pos c :: write_trace (pos + 1) true (count_buffer_after cb pos c) rest
    else
      BufferWrite.suffix pos c ::
        write_trace (pos + 1) false (if pos < 35 then cb else none) rest

/-- The writes of `to_range_results_values` on a body. -/
def parser_writes (body : List (List Char)) : List BufferWrite :=
  write_trace 0 false (some (List.replicate 10 NUL)) body.flatten

/-- The bound of the claim on a write: below 35 in `suffix_buffer`, and inside the 10
characters of `count_buffer` or at the position of its terminator. -/
def within_buffers : BufferWrite → Prop
  | BufferWrite.suffix pos _ => pos < 35
  | BufferWrite.count pos _ => pos ≤ 10

/-- A write with defined behaviour: inside `suffix_buffer`, inside `count_buffer`, or `'\0'`
written over the terminator of `count_buffer`. -/
def write_defined : BufferWrite → Prop
  | BufferWrite.suffix pos _ => pos < 35
  | BufferWrite.count pos c => pos < 10 ∨ (pos = 10 ∧ c = NUL)

instance (w : BufferWrite) : Decidable (within_buffers w) := by
  cases w <;> unfold within_buffers <;> exact inferInstance

instance (w : BufferWrite) : Decidable (write_defined w) := by
  cases w <;> unfold write_defined <;> exact inferInstance

/-- A line of a response body: the suffix, the digits of the count, and whether the line
ends with CR LF or with LF. -/
structure BodyLine where
  suffix : List Char
  digits : List Char
  crlf : Bool
deriving DecidableEq

/-- The characters of the count field as the parser sees them: the digits, and the carriage
return of a CR LF line break. -/
def BodyLine.count_field (l : BodyLine) : List Char :=
  l.digits ++ (if l.crlf then ['\r'] else [])

/-- The characters of a line, with its line break. -/
def BodyLine.text (l : BodyLine) : List Char :=
  l.suffix ++ ':' :: (l.count_field ++ ['\n'])

/-- A line of the grammar: a suffix of 35 characters, none of them a colon or a line
feed, and a non-empty run of decimal digits. -/
def BodyLine.conforms (l : BodyLine) : Prop :=
  l.suffix.length = 35 ∧ (∀ c ∈ l.suffix, c ≠ '\n' ∧ c ≠ ':') ∧ l.digits ≠ [] ∧
  ∀ c ∈ l.digits, c.isDigit = true

instance (l : BodyLine) : Decidable l.conforms := by
  unfold BodyLine.conforms
  exact inferInstance

/-- The body made of the lines. -/
def body_of_lines (lines : List BodyLine) : List Char := lines.flatMap BodyLine.text

/-- The writes of the parser on one line: the characters of the suffix at `0, 1, ...`, the
characters of the count field at `0, 1, ...`, and `'\0'` after them. -/
def line_writes (l : BodyLine) : List BufferWrite :=
  (l.suffix.enum.map (fun ic => BufferWrite.suffix ic.1 ic.2)) ++
  ((l.count_field.enum.map (fun ic => BufferWrite.count ic.1 ic.2)) ++
    [BufferWrite.count l.count_field.length NUL])

/-- A line with a count of eleven digits, ended by LF. -/
def line_eleven_digits : BodyLine :=
  { suffix := "0018A45C4D1DEF81644B54AB7F969B88D65".toList, digits := "12345678901".toList,
    crlf := false }

/-- A line with the count `9999999999` (ten digits, more than `INT_MAX`), ended by LF. -/
def line_ten_nines : BodyLine :=
  { suffix := "0018A45C4D1DEF81644B54AB7F969B88D65".toList, digits := "9999999999".toList,
    crlf := false }

/-- A line with the count `INT_MAX` (ten digits), ended by CR LF. -/
def line_int_max_crlf : BodyLine :=
  { suffix := "0018A45C4D1DEF81644B54AB7F969B88D65".toList, digits := "2147483647".toList,
    crlf := true }

/-- The statements of `to_range_results_values` after its loops: the last line is stored
when `pos` is not `0`, and `range_values` is returned. -/
def parse_end (st : ParseState) : Except Abort values_t :=
  if st.pos ≠ 0 then do
    let st1 ← store_line st
    pure st1.range_values
  else
    pure st.range_values

/-- A line with the count 5, ended by CR LF. -/
def line_five_crlf : BodyLine :=
  { suffix := "0018A45C4D1DEF81644B54AB7F969B88D65".toList, digits := "5".toList, crlf := true }

/-! ## The two caches behind one worker loop -/

/-- A body that is empty, or that begins with 35 characters none of which is a line feed or
a colon: the first line overwrites all of `suffix_buffer` before the parser stores a key. -/
def full_first_suffix (body : List (List Char)) : Prop :=
  body.flatten = [] ∨
  (35 ≤ body.flatten.length ∧ ∀ c ∈ body.flatten.take 35, c ≠ '\n' ∧ c ≠ ':')

instance (body : List (List Char)) : Decidable (full_first_suffix body) := by
  unfold full_first_suffix
  exact inferInstance

theorem map_find_assign_self {K V : Type} [DecidableEq K] (m : List (K × V)) (k : K) (v : V) :
    map_find (map_assign m k v) k = some v := by
  induction m with
  | nil => simp [map_assign, map_find]
  | cons hd tl ih =>
    obtain ⟨k', v'⟩ := hd
    by_cases h : k' = k
    · simp [map_assign, map_find, h]
    · simp [map_assign, map_find, h, ih]

theorem map_find_assign_ne {K V : Type} [DecidableEq K] (m : List (K × V)) (k k' : K) (v : V)
    (h : k' ≠ k) : map_find (map_assign m k v) k' = map_find m k' := by
  induction m with
  | nil =>
    have h2 : ¬ k = k' := fun e => h e.symm
    simp [map_assign, map_find, h2]
  | cons hd tl ih =>
    obtain ⟨k1, v1⟩ := hd
    by_cases h1 : k1 = k
    · subst h1
      have h2 : ¬ k1 = k' := fun e => h e.symm
      simp [map_assign, map_find, h2]
    · by_cases h3 : k1 = k'
      · subst h3
        simp [map_assign, map_find, h1]
      · simp [map_assign, map_find, h1, h3, ih]

theorem map_find_none_iff {K V : Type} [DecidableEq K] (m : List (K × V)) (k : K) :
    map_find m k = none ↔ k ∉ map_keys m := by
  induction m with
  | nil => simp [map_find, map_keys]
  | cons hd tl ih =>
    obtain ⟨k1, v1⟩ := hd
    by_cases h1 : k1 = k
    · simp [map_find, map_keys, h1]
    · have h2 : ¬ k = k1 := fun e => h1 e.symm
      simp only [map_keys] at ih
      simp [map_find, map_keys, h1, h2, ih]

/-! ## cache.hpp -/

theorem size_t_of_int_nonneg (v : Int) (h0 : 0 ≤ v) (h1 : v < 2 ^ 64) :
    (size_t_of_int v : Int) = v := by
  unfold size_t_of_int
  rw [Int.emod_eq_of_lt h0 h1]
  exact Int.toNat_of_nonneg h0

theorem HexCache_get_m_cache (c : HexCache) (d : Digest) : (c.get d).2.m_cache = c.m_cache := by
  simp only [HexCache.get]
  split
  · rfl
  · split <;> rfl

theorem HexCache_get_eq (c : HexCache) (d : Digest) :
    (c.get d).1 =
      match map_find c.m_cache ( Digest.extract_hex_prefix d) with
      | none => (EntryStatus.Uncached, 0)
      | some pv =>
        match map_find pv d.extract_hex_suffix with
        | none => (EntryStatus.PrefixCached, 0)
        | some value => (EntryStatus.ValueCached, size_t_of_int value) := by
  simp only [HexCache.get]
  split
  · rfl
  · split <;> rfl

theorem apply_ops_find (ops : List CacheOp) (c : HexCache) (q : hexprefix_t)
    (hq : q ∉ put_prefixes ops) :
    map_find (c.apply_ops ops).m_cache q = map_find c.m_cache q := by
  induction ops generalizing c with
  | nil => rfl
  | cons op rest ih =>
    cases op with
    | get d =>
      simp only [put_prefixes] at hq
      simp only [HexCache.apply_ops]
      rw [ih _ hq, HexCache_get_m_cache]
    | put p v =>
      simp only [put_prefixes, List.mem_cons, not_or] at hq
      simp only [HexCache.apply_ops]
      rw [ih _ hq.2]
      simp only [HexCache.put]
      exact map_find_assign_ne _ _ _ _ hq.1

theorem get_put_bound (c : HexCache) (p : hexprefix_t) (values : values_t) (d : Digest)
    (v : Int) (hd : ( Digest.extract_hex_prefix d) = p)
    (hv : map_find values d.extract_hex_suffix = some v) :
    ((c.put p values).get d).1 = (EntryStatus.ValueCached, size_t_of_int v) := by
  rw [HexCache_get_eq]
  simp only [HexCache.put, hd, map_find_assign_self, hv]

theorem get_put_unbound (c : HexCache) (p : hexprefix_t) (values : values_t) (d : Digest)
    (hd : ( Digest.extract_hex_prefix d) = p)
    (hk : d.extract_hex_suffix ∉ map_keys values) :
    ((c.put p values).get d).1 = (EntryStatus.PrefixCached, 0) := by
  rw [HexCache_get_eq]
  have hn := (map_find_none_iff values d.extract_hex_suffix).2 hk
  simp only [HexCache.put, hd, map_find_assign_self, hn]

/-- C1: after `put(p, values)`, `get` of a digest with prefix `p` returns `ValueCached` with
the stored count (as the `std::size_t` the pair holds, the count itself when it is not
negative) when the digest's suffix is a key of `values`, and `(PrefixCached, 0)` when it is
not; in a cache built from the empty one by any history of calls that never stored the
digest's prefix, `get` returns `(Uncached, 0)`. -/
theorem HexCache_get_after_put (p : hexprefix_t) (values : values_t) (d : Digest)
    (hd : ( Digest.extract_hex_prefix d) = p) :
    (∀ (c : HexCache) (v : Int), map_find values d.extract_hex_suffix = some v →
        ((c.put p values).get d).1 = (EntryStatus.ValueCached, size_t_of_int v) ∧
        (0 ≤ v → v < 2 ^ 64 → (size_t_of_int v : Int) = v)) ∧
    (∀ c : HexCache, d.extract_hex_suffix ∉ map_keys values →
        ((c.put p values).get d).1 = (EntryStatus.PrefixCached, 0)) ∧
    (∀ ops : List CacheOp, p ∉ put_prefixes ops →
        ((HexCache.empty.apply_ops ops).get d).1 = (EntryStatus.Uncached, 0)) := by
  refine ⟨?_, ?_, ?_⟩
  · intro c v hv
    exact ⟨get_put_bound c p values d v hd hv, size_t_of_int_nonneg v⟩
  · intro c hk
    exact get_put_unbound c p values d hd hk
  · intro ops hp
    rw [HexCache_get_eq, hd, apply_ops_find ops _ p hp]
    rfl

theorem HexCache_get_after_put_witness :
    ((HexCache.empty.put "00010".toList [("2030405060708090A0B0C0D0E0F10111213".toList, 5)]).get
        example_digest).1 = (EntryStatus.ValueCached, 5) ∧
    ((HexCache.empty.put "00010".toList [("F".toList, 5)]).get example_digest).1
      = (EntryStatus.PrefixCached, 0) ∧
    ((HexCache.empty.apply_ops [CacheOp.put "AAAAA".toList [], CacheOp.get example_digest]).get
        example_digest).1 = (EntryStatus.Uncached, 0) := by
  have h := HexCache_get_after_put "00010".toList
    [("2030405060708090A0B0C0D0E0F10111213".toList, 5)] example_digest (by decide)
  have h2 := HexCache_get_after_put "00010".toList [("F".toList, 5)] example_digest (by decide)
  have h3 := HexCache_get_after_put "00010".toList [] example_digest (by decide)
  refine ⟨?_, h2.2.1 HexCache.empty (by decide), h3.2.2 _ (by decide)⟩
  have := (h.1 HexCache.empty 5 (by decide)).1
  simpa [size_t_of_int] using this

/-- C2: `put` replaces the entry of a prefix as a whole.  After `put(p, values1)` and then
`put(p, values2)`, a digest with prefix `p` whose suffix is a key of `values1` but not of
`values2` gets `(PrefixCached, 0)`, a suffix bound in `values2` gets the count of `values2`,
and the entry of every other prefix is the one the cache had before the two calls. -/
theorem HexCache_put_replaces (c : HexCache) (p : hexprefix_t) (values1 values2 : values_t)
    (d : Digest) (hd : ( Digest.extract_hex_prefix d) = p) :
    (d.extract_hex_suffix ∈ map_keys values1 → d.extract_hex_suffix ∉ map_keys values2 →
        (((c.put p values1).put p values2).get d).1 = (EntryStatus.PrefixCached, 0)) ∧
    (∀ v : Int, map_find values2 d.extract_hex_suffix = some v →
        (((c.put p values1).put p values2).get d).1
          = (EntryStatus.ValueCached, size_t_of_int v)) ∧
    (∀ q : hexprefix_t, q ≠ p →
        map_find ((c.put p values1).put p values2).m_cache q = map_find c.m_cache q) ∧
    (∀ d2 : Digest, ( Digest.extract_hex_prefix d2) ≠ p →
        (((c.put p values1).put p values2).get d2).1 = (c.get d2).1) := by
  refine ⟨?_, ?_, ?_, ?_⟩
  · intro _ hk
    exact get_put_unbound _ p values2 d hd hk
  · intro v hv
    exact get_put_bound _ p values2 d v hd hv
  · intro q hq
    simp only [HexCache.put]
    rw [map_find_assign_ne _ _ _ _ hq, map_find_assign_ne _ _ _ _ hq]
  · intro d2 hq
    rw [HexCache_get_eq, HexCache_get_eq]
    simp only [HexCache.put]
    rw [map_find_assign_ne _ _ _ _ hq, map_find_assign_ne _ _ _ _ hq]

theorem HexCache_put_replaces_witness :
    (((HexCache.empty.put "00010".toList
          [("2030405060708090A0B0C0D0E0F10111213".toList, 5)]).put "00010".toList
          [("F".toList, 7)]).get example_digest).1 = (EntryStatus.PrefixCached, 0) :=
  (HexCache_put_replaces HexCache.empty "00010".toList
    [("2030405060708090A0B0C0D0E0F10111213".toList, 5)] [("F".toList, 7)] example_digest
    (by decide)).1 (by decide) (by decide)

/-! ## digest.hpp -/

theorem format_02X_length (b : Fin 256) : (format_02X b).length = 2 := rfl

theorem flatMap_format_02X_length (l : List (Fin 256)) :
    (l.flatMap format_02X).length = 2 * l.length := by
  induction l with
  | nil => rfl
  | cons b tl ih =>
    simp only [List.flatMap_cons, List.length_append, ih, format_02X_length, List.length_cons]
    omega

theorem get_hexdigest_length (digest : digest_t) : (get_hexdigest digest).length = 40 := by
  unfold get_hexdigest
  rw [flatMap_format_02X_length, digest.property]
  rfl

/-- C4: for every input `v` the hex digest of `Digest(v)` has 40 characters,
`extract_hex_prefix` yields its first 5 characters and `extract_hex_suffix` the remaining 35,
the prefix followed by the suffix is the hex digest, and a digest built from the same input
is the same digest. -/
theorem Digest_prefix_suffix (SHA1 : List Char → digest_t) (v : List Char) :
    (Digest.make SHA1 v).hexdigest.length = 40 ∧
    ( Digest.extract_hex_prefix (Digest.make SHA1 v)) = (Digest.make SHA1 v).hexdigest.take 5 ∧
    ( Digest.extract_hex_prefix (Digest.make SHA1 v)).length = 5 ∧
    (Digest.make SHA1 v).extract_hex_suffix = (Digest.make SHA1 v).hexdigest.drop 5 ∧
    (Digest.make SHA1 v).extract_hex_suffix.length = 35 ∧
    ( Digest.extract_hex_prefix (Digest.make SHA1 v)) ++ (Digest.make SHA1 v).extract_hex_suffix
      = (Digest.make SHA1 v).hexdigest ∧
    (∀ v2 : List Char, v2 = v → Digest.make SHA1 v2 = Digest.make SHA1 v) := by
  have hlen : (Digest.make SHA1 v).m_hexdigest.length = 40 := get_hexdigest_length _
  refine ⟨hlen, rfl, ?_, rfl, ?_, ?_, ?_⟩
  · simp only [ Digest.extract_hex_prefix, List.length_take, hlen]
    rfl
  · simp only [Digest.extract_hex_suffix, List.length_drop, hlen]
  · exact List.take_append_drop 5 _
  · intro v2 h
    rw [h]

theorem Digest_prefix_suffix_witness :
    Digest.make example_SHA1 "abc".toList = Digest.make example_SHA1 ['a', 'b', 'c'] :=
  (Digest_prefix_suffix example_SHA1 ['a', 'b', 'c']).2.2.2.2.2.2 "abc".toList (by decide)

/-! ## main.cpp: the chunk partition -/

theorem size_t_sub_of_le (a b : Nat) (hb : b ≤ a) (ha : a < 2 ^ 64) : size_t_sub a b = a - b := by
  unfold size_t_sub
  have h : a + 2 ^ 64 - b = (a - b) + 2 ^ 64 := by omega
  rw [h, Nat.add_mod_right, Nat.mod_eq_of_lt (by omega)]

theorem chunk_size_eq (N T : Nat) (hT : 1 ≤ T) (hfit : N + T ≤ 2 ^ 64) :
    chunk_size N T = (N + T - 1) / T := by
  unfold chunk_size size_t_add
  by_cases h : N + T = 2 ^ 64
  · rw [h, Nat.mod_self]
    unfold size_t_sub
    rw [Nat.zero_add, Nat.mod_eq_of_lt (by omega)]
  · rw [Nat.mod_eq_of_lt (by omega), size_t_sub_of_le _ _ (by omega) (by omega)]

theorem chunk_size_mul_le (N T : Nat) : (N + T - 1) / T * T ≤ N + T - 1 :=
  Nat.div_mul_le_self _ _

theorem le_chunk_size_mul (N T : Nat) (hT : 1 ≤ T) : N ≤ (N + T - 1) / T * T := by
  have h := Nat.div_add_mod (N + T - 1) T
  have h2 := Nat.mod_lt (N + T - 1) (show T > 0 by omega)
  have h3 : T * ((N + T - 1) / T) = (N + T - 1) / T * T := Nat.mul_comm _ _
  omega

theorem main_chunks_loop_eq (cs N : Nat) (hN : N < 2 ^ 64) (todo : Nat) :
    ∀ i : Nat, cs * (i + todo) < 2 ^ 64 →
      main_chunks_loop cs todo i (N - cs * i) =
        ((List.range todo).map (fun j => (cs * (i + j), min cs (N - cs * (i + j)))),
          N - cs * (i + todo)) := by
  induction todo with
  | zero => intro i _; simp [main_chunks_loop]
  | succ k ih =>
    intro i hb
    have hle : cs * i ≤ cs * (i + (k + 1)) := Nat.mul_le_mul_left _ (by omega)
    have hmul : size_t_mul cs i = cs * i := Nat.mod_eq_of_lt (by omega)
    have hsub : size_t_sub (N - cs * i) (min cs (N - cs * i)) = N - cs * (i + 1) := by
      rw [size_t_sub_of_le _ _ (Nat.min_le_right _ _) (by omega), Nat.mul_add, Nat.mul_one]
      omega
    have hb2 : cs * (i + 1 + k) < 2 ^ 64 := by
      have : i + 1 + k = i + (k + 1) := by omega
      rw [this]; exact hb
    simp only [main_chunks_loop, hmul, hsub, ih (i + 1) hb2]
    rw [List.range_succ_eq_map, List.map_cons, List.map_map]
    have e1 : i + 1 + k = i + (k + 1) := by omega
    refine Prod.ext ?_ (by simp [e1])
    simp only [Nat.add_zero, List.cons.injEq, true_and]
    apply List.map_congr_left
    intro j _
    have e2 : i + 1 + j = i + (j + 1) := by omega
    simp [e2]

theorem main_chunks_eq (N T : Nat) (hT : 1 ≤ T) (hfit : N + T ≤ 2 ^ 64) :
    main_chunks N T =
      ((List.range T).map (fun j =>
          ((N + T - 1) / T * j, min ((N + T - 1) / T) (N - (N + T - 1) / T * j))), 0) := by
  unfold main_chunks
  rw [chunk_size_eq N T hT hfit]
  have h1 := chunk_size_mul_le N T
  have h2 := le_chunk_size_mul N T hT
  have h := main_chunks_loop_eq ((N + T - 1) / T) N (by omega) T 0 (by rw [Nat.zero_add]; omega)
  simp only [Nat.mul_zero, Nat.sub_zero, Nat.zero_add] at h
  rw [h]
  refine Prod.ext rfl ?_
  simp only
  omega

theorem chunk_of_eq (N T : Nat) (hT : 1 ≤ T) (hfit : N + T ≤ 2 ^ 64) (i : Nat) (hi : i < T) :
    chunk_of N T i = ((N + T - 1) / T * i, min ((N + T - 1) / T) (N - (N + T - 1) / T * i)) := by
  unfold chunk_of
  rw [main_chunks_eq N T hT hfit]
  simp [List.getD, hi]

theorem sum_chunk_lengths (cs : Nat) (todo : Nat) :
    ∀ i r : Nat, r < 2 ^ 64 →
      ((main_chunks_loop cs todo i r).1.map Prod.snd).sum + (main_chunks_loop cs todo i r).2
        = r := by
  induction todo with
  | zero => intro i r _; simp [main_chunks_loop]
  | succ k ih =>
    intro i r hr
    have hsub : size_t_sub r (min cs r) = r - min cs r :=
      size_t_sub_of_le _ _ (Nat.min_le_right _ _) hr
    have h := ih (i + 1) (r - min cs r) (by omega)
    simp only [main_chunks_loop, hsub, List.map_cons, List.sum_cons]
    have := Nat.min_le_right cs r
    omega

theorem in_chunk_unique (cs N i j idx : Nat)
    (hi : in_chunk (cs * i, min cs (N - cs * i)) idx)
    (hj : in_chunk (cs * j, min cs (N - cs * j)) idx) : i = j := by
  unfold in_chunk at hi hj
  simp only at hi hj
  have hi2 := Nat.min_le_left cs (N - cs * i)
  have hj2 := Nat.min_le_left cs (N - cs * j)
  rcases Nat.lt_trichotomy i j with h | h | h
  · have := Nat.mul_le_mul_left cs (show i + 1 ≤ j from h)
    rw [Nat.mul_add, Nat.mul_one] at this
    omega
  · exact h
  · have := Nat.mul_le_mul_left cs (show j + 1 ≤ i from h)
    rw [Nat.mul_add, Nat.mul_one] at this
    omega

/-- C5: for `T >= 1` threads and `N` records (with `N + T - 1` representable in
`std::size_t`, as it is for every vector size and every thread count the `int` loop counter
can reach), `main` computes `T` chunks, chunk `i` at offset `chunk_size * i` with
`chunk_size` the ceiling of `N / T`; every chunk has at most `chunk_size` records, no record
index lies in two chunks, the lengths sum to `N`, the final `remainder` is `0`, and every
index below `N` lies in exactly one chunk. -/
theorem main_chunks_partition (N T : Nat) (hT : 1 ≤ T) (hfit : N + T ≤ 2 ^ 64) :
    (main_chunks N T).1.length = T ∧
    (N ≤ chunk_size N T * T ∧ chunk_size N T * T < N + T) ∧
    (∀ i, i < T → (chunk_of N T i).1 = chunk_size N T * i ∧
      (chunk_of N T i).2 = min (chunk_size N T) (N - chunk_size N T * i) ∧
      (chunk_of N T i).2 ≤ chunk_size N T) ∧
    (∀ i j idx, i < T → j < T →
      in_chunk (chunk_of N T i) idx → in_chunk (chunk_of N T j) idx → i = j) ∧
    ((main_chunks N T).1.map Prod.snd).sum = N ∧
    (main_chunks N T).2 = 0 ∧
    (∀ idx, idx < N → ∃! i, i < T ∧ in_chunk (chunk_of N T i) idx) := by
  have hcs := chunk_size_eq N T hT hfit
  have h1 := chunk_size_mul_le N T
  have h2 := le_chunk_size_mul N T hT
  have hsum := sum_chunk_lengths (chunk_size N T) T 0 N (by omega)
  have hmain := main_chunks_eq N T hT hfit
  have hrem : (main_chunks N T).2 = 0 := by rw [hmain]
  refine ⟨?_, ⟨?_, ?_⟩, ?_, ?_, ?_, hrem, ?_⟩
  · rw [hmain]; simp
  · rw [hcs]; exact h2
  · rw [hcs]; omega
  · intro i hi
    rw [chunk_of_eq N T hT hfit i hi, hcs]
    exact ⟨rfl, rfl, Nat.min_le_left _ _⟩
  · intro i j idx hi hj hci hcj
    rw [chunk_of_eq N T hT hfit i hi] at hci
    rw [chunk_of_eq N T hT hfit j hj] at hcj
    exact in_chunk_unique _ _ _ _ _ hci hcj
  · have : (main_chunks N T).2 = (main_chunks_loop (chunk_size N T) T 0 N).2 := rfl
    have h3 : ((main_chunks N T).1.map Prod.snd).sum
        = ((main_chunks_loop (chunk_size N T) T 0 N).1.map Prod.snd).sum := rfl
    omega
  · intro idx hidx
    have hpos : 0 < (N + T - 1) / T := by
      rcases Nat.eq_zero_or_pos ((N + T - 1) / T) with h | h
      · rw [h] at h2; omega
      · exact h
    have hdiv : idx / ((N + T - 1) / T) < T := by
      rw [Nat.div_lt_iff_lt_mul hpos, Nat.mul_comm]
      have := Nat.mul_comm ((N + T - 1) / T) T
      omega
    have hin : in_chunk (chunk_of N T (idx / ((N + T - 1) / T))) idx := by
      rw [chunk_of_eq N T hT hfit _ hdiv]
      unfold in_chunk
      have hdm := Nat.div_add_mod idx ((N + T - 1) / T)
      have hml := Nat.mod_lt idx hpos
      simp only
      refine ⟨by omega, ?_⟩
      rcases Nat.le_total ((N + T - 1) / T) (N - (N + T - 1) / T * (idx / ((N + T - 1) / T)))
        with hle | hle
      · rw [Nat.min_eq_left hle]; omega
      · rw [Nat.min_eq_right hle]; omega
    refine ⟨idx / ((N + T - 1) / T), ⟨hdiv, hin⟩, ?_⟩
    intro j hj
    rw [chunk_of_eq N T hT hfit _ hdiv] at hin
    have hcj := hj.2
    rw [chunk_of_eq N T hT hfit j hj.1] at hcj
    exact in_chunk_unique _ _ _ _ _ hcj hin

theorem main_chunks_partition_witness :
    (main_chunks 5 4).1.length = 4 ∧ ((main_chunks 5 4).1.map Prod.snd).sum = 5 ∧
    (main_chunks 5 4).2 = 0 :=
  have h := main_chunks_partition 5 4 (by decide) (by norm_num)
  ⟨h.1, h.2.2.2.2.1, h.2.2.2.2.2.1⟩

/-- Outside the representable range the ceiling division wraps: two records and
`2 ^ 64 - 1` threads give `chunk_size = 0`. -/
theorem chunk_size_wraps : chunk_size 2 (2 ^ 64 - 1) = 0 := by
  norm_num [chunk_size, size_t_add, size_t_sub]

/-! ## request.cpp: the codec round trip -/

theorem take_succ_set (l : List Char) (c : Char) :
    ∀ k : Nat, k < l.length → (l.set k c).take (k + 1) = l.take k ++ [c] := by
  induction l with
  | nil => intro k h; simp at h
  | cons a tl ih =>
    intro k h
    cases k with
    | zero => simp
    | succ k =>
      simp only [List.length_cons, Nat.add_lt_add_iff_right] at h
      simp [ih k h]

theorem takeWhile_all (p : Char → Bool) (ds : List Char) (hds : ∀ x ∈ ds, p x = true) :
    ds.takeWhile p = ds := by
  induction ds with
  | nil => rfl
  | cons a tl ih =>
    have ha := hds a (List.mem_cons_self _ _)
    rw [List.takeWhile_cons, ha, if_pos rfl,
      ih (fun x hx => hds x (List.mem_cons_of_mem _ hx))]

theorem parse_char_suffix (st : ParseState) (c : Char) (h1 : c ≠ '\n') (h2 : c ≠ ':')
    (hpc : st.parse_count = false) (hpos : st.pos < st.suffix_buffer.length) :
    parse_char st c = Except.ok
      { st with suffix_buffer := st.suffix_buffer.set st.pos c, pos := st.pos + 1 } := by
  simp [parse_char, array_write, h1, h2, hpc, hpos, bind, Except.bind, pure, Except.pure]

theorem parse_char_colon (st : ParseState) :
    parse_char st ':' = Except.ok { st with pos := 0, parse_count := true } := by
  simp [parse_char, pure, Except.pure]

theorem parse_char_newline (st : ParseState) :
    parse_char st '\n' = (store_line st).map (fun st1 => { st1 with pos := 0, parse_count := false }) := by
  simp only [parse_char, if_true]
  cases store_line st <;> rfl

theorem suffix_run (s : List Char) (hs : ∀ c ∈ s, c ≠ '\n' ∧ c ≠ ':') :
    ∀ st : ParseState, st.parse_count = false →
      st.pos + s.length ≤ st.suffix_buffer.length →
      ∃ st2, s.foldlM parse_char st = Except.ok st2 ∧ st2.parse_count = false ∧
        st2.pos = st.pos + s.length ∧
        st2.suffix_buffer.take st2.pos = st.suffix_buffer.take st.pos ++ s ∧
        st2.suffix_buffer.length = st.suffix_buffer.length ∧
        st2.range_values = st.range_values ∧ st2.count_buffer = st.count_buffer := by
  induction s with
  | nil =>
    intro st hpc _
    exact ⟨st, rfl, hpc, rfl, by simp, rfl, rfl, rfl⟩
  | cons c tl ih =>
    intro st hpc hlen
    simp only [List.length_cons] at hlen
    have hc := hs c (List.mem_cons_self _ _)
    rw [List.foldlM_cons, parse_char_suffix st c hc.1 hc.2 hpc (by omega)]
    obtain ⟨st2, h1, h2, h3, h4, h5, h6, h7⟩ :=
      ih (fun x hx => hs x (List.mem_cons_of_mem _ hx))
        { st with suffix_buffer := st.suffix_buffer.set st.pos c, pos := st.pos + 1 } hpc
        (by simp only [List.length_set]; omega)
    refine ⟨st2, h1, h2, ?_, ?_, ?_, h6, h7⟩
    · rw [h3]; simp only [List.length_cons]; omega
    · rw [h4]
      simp only
      rw [take_succ_set _ _ _ (by omega)]
      simp
    · rw [h5]; simp

theorem foldlM_flatten (body : List (List Char)) :
    ∀ st : ParseState,
      body.foldlM (fun st buffer => buffer.foldlM parse_char st) st
        = body.flatten.foldlM parse_char st := by
  induction body with
  | nil => intro st; rfl
  | cons b tl ih =>
    intro st
    rw [List.foldlM_cons, List.flatten_cons, List.foldlM_append]
    cases h : List.foldlM parse_char st b with
    | error e => rfl
    | ok st1 => exact ih st1

theorem get_ne_length (st : LoopState) (pw : Password)
    (hget : st.passwords.get? st.current_password_index = some pw) :
    st.current_password_index ≠ st.passwords.length := by
  intro h
  rw [h, List.get?_eq_getElem?, List.getElem?_eq_none (Nat.le_refl _)] at hget
  exact Option.noConfusion hget

theorem loop_body_miss (SHA1 : List Char → digest_t) (net : Network) (st : LoopState)
    (pw : Password) (hint : net.interrupted st.current_password_index = false)
    (hget : st.passwords.get? st.current_password_index = some pw)
    (hmiss : (st.cache.get (Digest.make SHA1 pw.value)).1.1 = EntryStatus.Uncached) :
    loop_body SHA1 false net st =
      match request_range (exchange_for SHA1 net st pw) with
      | Except.error a => Step.thrown a (at_request SHA1 st pw)
      | Except.ok r =>
        Step.next (after_exchange net (at_request SHA1 st pw) st.current_password_index
          ( Digest.extract_hex_prefix (Digest.make SHA1 pw.value))
          (Digest.make SHA1 pw.value).extract_hex_suffix r.1.1 r.1.2 r.2) := by
  have hlt := get_ne_length st pw hget
  simp only [loop_body, hint, hget, hlt, hmiss, at_request, exchange_for]
  simp

theorem loop_body_hit (SHA1 : List Char → digest_t) (dry_run : Bool) (net : Network)
    (st : LoopState) (pw : Password)
    (hint : net.interrupted st.current_password_index = false)
    (hget : st.passwords.get? st.current_password_index = some pw)
    (hhit : (st.cache.get (Digest.make SHA1 pw.value)).1.1 ≠ EntryStatus.Uncached) :
    loop_body SHA1 dry_run net st =
      Step.next (record_result
        { st with
          current_password_index := st.current_password_index + 1
          cache := (st.cache.get (Digest.make SHA1 pw.value)).2 }
        st.current_password_index (st.cache.get (Digest.make SHA1 pw.value)).1.2 0) := by
  have hlt := get_ne_length st pw hget
  have hor : (st.cache.get (Digest.make SHA1 pw.value)).1.1 = EntryStatus.ValueCached ∨
      (st.cache.get (Digest.make SHA1 pw.value)).1.1 = EntryStatus.PrefixCached := by
    cases h : (st.cache.get (Digest.make SHA1 pw.value)).1.1 with
    | ValueCached => exact Or.inl rfl
    | PrefixCached => exact Or.inr rfl
    | Uncached => exact absurd h hhit
  simp only [loop_body, hint, hget, hlt, hor]
  simp

theorem Cache_get_miss (cache : Cache) (d : Digest)
    (hmiss : (cache.get d).1.1 = EntryStatus.Uncached) : (cache.get d).2 = cache := by
  cases cache with
  | null c => rfl
  | hex c =>
    simp only [Cache.get, HexCache.get] at hmiss ⊢
    split at hmiss
    · rename_i h; simp only [h]
    · split at hmiss <;> simp at hmiss

theorem request_range_failed (x : Exchange) (e : error_code)
    (h : x.write_ec = some e ∨ (x.write_ec = none ∧ x.read_ec = some e)) :
    request_range x = Except.ok ((RangeResults.empty, true), some e) := by
  rcases h with h | ⟨h1, h2⟩
  · simp [request_range, h]
  · simp [request_range, h1, h2]

theorem request_range_not_200 (x : Exchange) (h1 : x.write_ec = none) (h2 : x.read_ec = none)
    (h3 : x.response.result_int ≠ 200) :
    request_range x = Except.ok ((RangeResults.empty, true), none) := by
  simp [request_range, h1, h2, h3]

theorem request_range_200 (x : Exchange) (h1 : x.write_ec = none) (h2 : x.read_ec = none)
    (h3 : x.response.result_int = 200) :
    request_range x =
      match to_range_results_values x.uninit x.response.body with
      | Except.error a => Except.error a
      | Except.ok values =>
        Except.ok (({ values := values, body_size := x.response.payload_size },
          decide (x.response.connection = "close".toList)), none) := by
  simp [request_range, h1, h2, h3]

theorem modify_get (pws : List Password) (f : Password → Password) (idx : Nat) (pw : Password)
    (hget : pws.get? idx = some pw) : (pws.modify f idx).get? idx = some (f pw) := by
  rw [List.get?_eq_getElem?] at hget ⊢
  rw [List.getElem?_modify_eq, hget]
  rfl

/-- C9: a record whose exchange ends with an error code `e` makes the pass add one to
`requests_timed_out` when `e` is the timeout and to `requests_errored` otherwise (the other
counter is unchanged), call no `cache.put` (the cache is the one before the pass), write
the record with count `0` and `checked = true`, leave `bytes_downloaded` as it was, and go on
with the loop at the next record. -/
theorem transport_failure_handling (SHA1 : List Char → digest_t) (net : Network)
    (st : LoopState) (pw : Password) (e : error_code)
    (hint : net.interrupted st.current_password_index = false)
    (hget : st.passwords.get? st.current_password_index = some pw)
    (hmiss : (st.cache.get (Digest.make SHA1 pw.value)).1.1 = EntryStatus.Uncached)
    (hec : (exchange_for SHA1 net st pw).write_ec = some e ∨
      ((exchange_for SHA1 net st pw).write_ec = none ∧
        (exchange_for SHA1 net st pw).read_ec = some e)) :
    ∃ st2, loop_body SHA1 false net st = Step.next st2 ∧
      st2.progress.m_requests_timed_out = st.progress.m_requests_timed_out +
        (if e = error_code.timeout then 1 else 0) ∧
      st2.progress.m_requests_errored = st.progress.m_requests_errored +
        (if e = error_code.timeout then 0 else 1) ∧
      st2.trace.puts = st.trace.puts ∧ st2.cache = st.cache ∧
      st2.passwords = st.passwords.modify
        (fun p => { p with count := 0, checked := true }) st.current_password_index ∧
      st2.passwords.get? st.current_password_index
        = some { value := pw.value, count := 0, checked := true } ∧
      st2.progress.m_bytes_downloaded = st.progress.m_bytes_downloaded ∧
      st2.progress.m_passwords_checked = st.progress.m_passwords_checked + 1 ∧
      st2.current_password_index = st.current_password_index + 1 ∧
      (∀ fuel, run_loop SHA1 false net (fuel + 1) st = run_loop SHA1 false net fuel st2) := by
  have hbody := loop_body_miss SHA1 net st pw hint hget hmiss
  rw [request_range_failed _ e hec] at hbody
  simp only at hbody
  refine ⟨_, hbody, ?_, ?_, ?_, ?_, ?_, ?_, ?_, ?_, ?_, ?_⟩
  · by_cases he : e = error_code.timeout <;>
      simp [after_exchange, at_request, record_result, he, Progress.add_request_time_out,
        Progress.add_request_error, Progress.add_connection_reset, Progress.password_checked]
  · by_cases he : e = error_code.timeout <;>
      simp [after_exchange, at_request, record_result, he, Progress.add_request_time_out,
        Progress.add_request_error, Progress.add_connection_reset, Progress.password_checked]
  · by_cases he : e = error_code.timeout <;>
      simp [after_exchange, at_request, record_result, he]
  · by_cases he : e = error_code.timeout <;>
      simp [after_exchange, at_request, record_result, he, Cache_get_miss _ _ hmiss]
  · by_cases he : e = error_code.timeout <;>
      simp [after_exchange, at_request, record_result, he, count_of, RangeResults.empty,
        map_find, size_t_of_int]
  · have : (after_exchange net (at_request SHA1 st pw) st.current_password_index
        ( Digest.extract_hex_prefix (Digest.make SHA1 pw.value))
        (Digest.make SHA1 pw.value).extract_hex_suffix RangeResults.empty true (some e)).passwords
        = st.passwords.modify (fun p => { p with count := 0, checked := true })
          st.current_password_index := by
      by_cases he : e = error_code.timeout <;>
        simp [after_exchange, at_request, record_result, he, count_of, RangeResults.empty,
          map_find, size_t_of_int]
    rw [this, modify_get _ _ _ pw hget]
  · by_cases he : e = error_code.timeout <;>
      simp [after_exchange, at_request, record_result, he, Progress.add_request_time_out,
        Progress.add_request_error, Progress.add_connection_reset, Progress.password_checked,
        RangeResults.empty]
  · by_cases he : e = error_code.timeout <;>
      simp [after_exchange, at_request, record_result, he, Progress.add_request_time_out,
        Progress.add_request_error, Progress.add_connection_reset, Progress.password_checked]
  · by_cases he : e = error_code.timeout <;>
      simp [after_exchange, at_request, record_result, he]
  · intro fuel
    simp only [run_loop, hbody]

theorem transport_failure_handling_witness :
    ∃ st2, loop_body example_SHA1 false (network_answering exchange_timeout) example_state
        = Step.next st2 ∧
      st2.progress.m_requests_timed_out = 1 ∧ st2.progress.m_requests_errored = 0 ∧
      st2.cache = example_state.cache ∧
      st2.passwords.get? 0 = some { value := "abc".toList, count := 0, checked := true } := by
  obtain ⟨st2, h⟩ := transport_failure_handling example_SHA1 (network_answering exchange_timeout)
    example_state { value := "abc".toList, count := 0, checked := false } error_code.timeout
    rfl rfl (by decide) (Or.inr ⟨rfl, rfl⟩)
  exact ⟨st2, h.1, h.2.1, h.2.2.1, h.2.2.2.2.1, h.2.2.2.2.2.2.1⟩

/-- C7, what the code does: a response that arrives without transport error and with a
status other than 200 is classified `close_connection = true` with `ec` clear, so the pass
calls `cache.put` with the empty map: a prefix that looked up as `Uncached` before the pass
looks up as `(PrefixCached, 0)` after it. -/
theorem not_200_response_is_cached (SHA1 : List Char → digest_t) (net : Network)
    (st : LoopState) (pw : Password) (c : HexCache)
    (hint : net.interrupted st.current_password_index = false)
    (hget : st.passwords.get? st.current_password_index = some pw)
    (hcache : st.cache = Cache.hex c)
    (hmiss : map_find c.m_cache ( Digest.extract_hex_prefix (Digest.make SHA1 pw.value)) = none)
    (h1 : (exchange_for SHA1 net st pw).write_ec = none)
    (h2 : (exchange_for SHA1 net st pw).read_ec = none)
    (h3 : (exchange_for SHA1 net st pw).response.result_int ≠ 200) :
    request_range (exchange_for SHA1 net st pw) = Except.ok ((RangeResults.empty, true), none) ∧
    (st.cache.get (Digest.make SHA1 pw.value)).1 = (EntryStatus.Uncached, 0) ∧
    ∃ st2, loop_body SHA1 false net st = Step.next st2 ∧
      st2.cache = Cache.hex (c.put ( Digest.extract_hex_prefix (Digest.make SHA1 pw.value)) []) ∧
      st2.trace.puts
        = st.trace.puts ++ [(( Digest.extract_hex_prefix (Digest.make SHA1 pw.value)), [])] ∧
      (st2.cache.get (Digest.make SHA1 pw.value)).1 = (EntryStatus.PrefixCached, 0) := by
  have hlook : (st.cache.get (Digest.make SHA1 pw.value)).1 = (EntryStatus.Uncached, 0) := by
    rw [hcache]
    simp only [Cache.get]
    rw [HexCache_get_eq, hmiss]
  have hmiss2 : (st.cache.get (Digest.make SHA1 pw.value)).1.1 = EntryStatus.Uncached := by
    rw [hlook]
  have hreq := request_range_not_200 _ h1 h2 h3
  have hbody := loop_body_miss SHA1 net st pw hint hget hmiss2
  rw [hreq] at hbody
  simp only at hbody
  have hg : ((Cache.hex c).get (Digest.make SHA1 pw.value)).2 = Cache.hex c := by
    have := Cache_get_miss _ _ hmiss2
    rw [hcache] at this
    exact this
  have hc : (after_exchange net (at_request SHA1 st pw) st.current_password_index
      ( Digest.extract_hex_prefix (Digest.make SHA1 pw.value))
      (Digest.make SHA1 pw.value).extract_hex_suffix RangeResults.empty true none).cache
      = Cache.hex (c.put ( Digest.extract_hex_prefix (Digest.make SHA1 pw.value)) []) := by
    simp [after_exchange, at_request, record_result, hcache, hg, Cache.put, RangeResults.empty]
  refine ⟨hreq, hlook, _, hbody, hc, ?_, ?_⟩
  · simp [after_exchange, at_request, record_result, RangeResults.empty]
  · rw [hc]
    simp only [Cache.get]
    exact get_put_unbound c _ [] _ rfl (by simp [map_keys])

theorem not_200_response_is_cached_witness :
    ∃ st2, loop_body example_SHA1 false (network_answering exchange_503) example_state
        = Step.next st2 ∧
      (example_state.cache.get (Digest.make example_SHA1 "abc".toList)).1
        = (EntryStatus.Uncached, 0) ∧
      (st2.cache.get (Digest.make example_SHA1 "abc".toList)).1
        = (EntryStatus.PrefixCached, 0) := by
  obtain ⟨_, h0, st2, h⟩ := not_200_response_is_cached example_SHA1
    (network_answering exchange_503) example_state
    { value := "abc".toList, count := 0, checked := false } HexCache.empty
    rfl rfl rfl rfl rfl rfl (by decide)
  exact ⟨st2, h.1, h0, h.2.2.2⟩

theorem stoi_empty (rest : List Char) : stoi (NUL :: rest) = Except.error Abort.invalid_argument := by
  simp [stoi, NUL]

/-- A body whose first line has an empty count field makes the parser throw
`std::invalid_argument`, whatever follows that line. -/
theorem empty_count_throws (s rest uninit : List Char) (body : List (List Char))
    (hs : ∀ c ∈ s, c ≠ '\n' ∧ c ≠ ':') (hlen : s.length ≤ 35) (hu : uninit.length = 35)
    (hbody : body.flatten = s ++ ':' :: '\n' :: rest) :
    to_range_results_values uninit body = Except.error Abort.invalid_argument := by
  unfold to_range_results_values
  simp only []
  rw [foldlM_flatten, hbody]
  obtain ⟨st1, e1, _, _, _, _, _, c1⟩ := suffix_run s hs
    { range_values := [], suffix_buffer := uninit, count_buffer := List.replicate 10 NUL,
      pos := 0, parse_count := false } rfl (by simp only [Nat.zero_add, hu]; exact hlen)
  rw [List.foldlM_append, e1]
  show (List.foldlM parse_char st1 (':' :: '\n' :: rest) >>= _) = _
  rw [List.foldlM_cons, parse_char_colon]
  show (List.foldlM parse_char _ ('\n' :: rest) >>= _) = _
  rw [List.foldlM_cons, parse_char_newline]
  have hst : store_line { st1 with pos := 0, parse_count := true }
      = Except.error Abort.invalid_argument := by
    simp only [store_line, string_write, c1]
    simp [List.replicate, stoi_empty, bind, Except.bind]
  rw [hst]
  rfl

/-- C8 (as the code behaves): when the body of a 200 response makes `std::stoi` throw (a
count field without a decimal numeral, such as an empty one, or a numeral outside `int`), the
exception leaves `to_range_results_values`, `request_range` and the worker loop: the pass
ends with the exception, the record is not written (its count and `checked` are the ones it
had), the counters and the cache are unchanged, and the loop does not go on to the next
record. -/
theorem malformed_count_ends_loop (SHA1 : List Char → digest_t) (net : Network)
    (st : LoopState) (pw : Password) (a : Abort)
    (hint : net.interrupted st.current_password_index = false)
    (hget : st.passwords.get? st.current_password_index = some pw)
    (hmiss : (st.cache.get (Digest.make SHA1 pw.value)).1.1 = EntryStatus.Uncached)
    (h1 : (exchange_for SHA1 net st pw).write_ec = none)
    (h2 : (exchange_for SHA1 net st pw).read_ec = none)
    (h3 : (exchange_for SHA1 net st pw).response.result_int = 200)
    (hparse : to_range_results_values (exchange_for SHA1 net st pw).uninit
      (exchange_for SHA1 net st pw).response.body = Except.error a) :
    loop_body SHA1 false net st = Step.thrown a (at_request SHA1 st pw) ∧
    (at_request SHA1 st pw).passwords = st.passwords ∧
    (at_request SHA1 st pw).passwords.get? st.current_password_index = some pw ∧
    (at_request SHA1 st pw).progress = st.progress ∧
    (at_request SHA1 st pw).cache = st.cache ∧
    (∀ fuel, run_loop SHA1 false net (fuel + 1) st = Step.thrown a (at_request SHA1 st pw)) := by
  have hreq : request_range (exchange_for SHA1 net st pw) = Except.error a := by
    rw [request_range_200 _ h1 h2 h3, hparse]
  have hbody := loop_body_miss SHA1 net st pw hint hget hmiss
  rw [hreq] at hbody
  simp only at hbody
  refine ⟨hbody, rfl, hget, rfl, Cache_get_miss _ _ hmiss, ?_⟩
  intro fuel
  simp only [run_loop, hbody]

theorem malformed_count_ends_loop_witness :
    loop_body example_SHA1 false (network_answering exchange_empty_count) example_state
      = Step.thrown Abort.invalid_argument
          (at_request example_SHA1 example_state
            { value := "abc".toList, count := 0, checked := false }) :=
  (malformed_count_ends_loop example_SHA1 (network_answering exchange_empty_count)
    example_state { value := "abc".toList, count := 0, checked := false }
    Abort.invalid_argument rfl rfl (by decide) rfl rfl rfl
    (empty_count_throws "0018A45C4D1DEF81644B54AB7F969B88D65".toList [] _ _ (by decide)
      (by decide) (by decide) (by decide))).1

/-- C8, the claim fails: for the first record of `example_state`, a 200 response whose only
line has an empty count field ends the pass with `std::invalid_argument`; the pass does not
end with the record written (count 0, `checked = true`) and the loop going on. -/
theorem malformed_count_not_absorbed :
    loop_body example_SHA1 false (network_answering exchange_empty_count) example_state
      = Step.thrown Abort.invalid_argument
          (at_request example_SHA1 example_state
            { value := "abc".toList, count := 0, checked := false }) ∧
    ((at_request example_SHA1 example_state
        { value := "abc".toList, count := 0, checked := false }).passwords.map
          (fun p => p.checked)) = [false, false] ∧
    ¬ ∃ st2, loop_body example_SHA1 false (network_answering exchange_empty_count) example_state
        = Step.next st2 ∧
      st2.passwords.get? 0 = some { value := "abc".toList, count := 0, checked := true } := by
  have hparse := empty_count_throws "0018A45C4D1DEF81644B54AB7F969B88D65".toList []
    exchange_empty_count.uninit exchange_empty_count.response.body (by decide) (by decide)
    (by decide) (by decide)
  have hreq : request_range (exchange_for example_SHA1 (network_answering exchange_empty_count)
      example_state { value := "abc".toList, count := 0, checked := false })
      = Except.error Abort.invalid_argument := by
    have hx : exchange_for example_SHA1 (network_answering exchange_empty_count) example_state
        { value := "abc".toList, count := 0, checked := false } = exchange_empty_count := rfl
    rw [hx, request_range_200 _ rfl rfl rfl, hparse]
  have hbody := loop_body_miss example_SHA1 (network_answering exchange_empty_count)
    example_state { value := "abc".toList, count := 0, checked := false } rfl rfl (by decide)
  rw [hreq] at hbody
  simp only at hbody
  refine ⟨hbody, by decide, ?_⟩
  rintro ⟨st2, h, _⟩
  rw [hbody] at h
  exact Step.noConfusion h

/-! ## main.cpp: the whole loop of one worker -/

theorem after_exchange_frame (net : Network) (st : LoopState) (idx : Nat) (pfx : hexprefix_t)
    (suffix : hexsuffix_t) (rr : RangeResults) (cc : Bool) (ec : Option error_code) :
    (after_exchange net st idx pfx suffix rr cc ec).current_password_index
      = st.current_password_index ∧
    (after_exchange net st idx pfx suffix rr cc ec).passwords.length = st.passwords.length ∧
    (after_exchange net st idx pfx suffix rr cc ec).trace.requests = st.trace.requests ∧
    (after_exchange net st idx pfx suffix rr cc ec).target = st.target := by
  cases ec with
  | none => cases cc <;> simp [after_exchange, record_result]
  | some e =>
    by_cases he : e = error_code.timeout <;> cases cc <;>
      simp [after_exchange, record_result, he]

theorem after_exchange_cache (net : Network) (st : LoopState) (idx : Nat) (pfx : hexprefix_t)
    (suffix : hexsuffix_t) (rr : RangeResults) (cc : Bool) :
    (after_exchange net st idx pfx suffix rr cc none).cache = st.cache.put pfx rr.values := by
  cases cc <;> simp [after_exchange, record_result]

theorem loop_body_next (SHA1 : List Char → digest_t) (dry_run : Bool) (net : Network)
    (st st2 : LoopState) (h : loop_body SHA1 dry_run net st = Step.next st2) :
    st2.current_password_index = st.current_password_index + 1 ∧
    st2.passwords.length = st.passwords.length ∧
    st.current_password_index < st.passwords.length := by
  unfold loop_body at h
  split at h
  · exact Step.noConfusion h
  · split at h
    · exact Step.noConfusion h
    · split at h
      · exact Step.noConfusion h
      · rename_i pw hget
        have hlt : st.current_password_index < st.passwords.length := by
          rw [List.get?_eq_getElem?] at hget
          by_contra hge
          rw [List.getElem?_eq_none (by omega)] at hget
          exact Option.noConfusion hget
        simp only at h
        split at h
        · injection h with h
          subst h
          simp [record_result, hlt]
        · split at h
          · split at h
            · exact Step.noConfusion h
            · injection h with h
              subst h
              refine ⟨?_, ?_, hlt⟩
              · rw [(after_exchange_frame _ _ _ _ _ _ _ _).1]
              · rw [(after_exchange_frame _ _ _ _ _ _ _ _).2.1]
          · injection h with h
            subst h
            simp [record_result, hlt]

theorem run_loop_stops (SHA1 : List Char → digest_t) (dry_run : Bool) (net : Network)
    (fuel : Nat) :
    ∀ st : LoopState, st.passwords.length + 1 ≤ fuel + st.current_password_index → 0 < fuel →
      ∀ st2, run_loop SHA1 dry_run net fuel st ≠ Step.next st2 := by
  induction fuel with
  | zero => intro st _ h0; exact absurd h0 (Nat.lt_irrefl 0)
  | succ k ih =>
    intro st hle _ st2 h
    simp only [run_loop] at h
    split at h
    · rename_i st1 hb
      have hn := loop_body_next SHA1 dry_run net st st1 hb
      exact ih st1 (by omega) (by omega) st2 h
    · rename_i r hr
      rw [h] at hr
      exact hr st2 rfl

/-- The loop of `get_passwords_count` ends: with the fuel the function gives it, the loop
is left by `break` or by an exception. -/
theorem get_passwords_count_returns (SHA1 : List Char → digest_t) (dry_run : Bool)
    (net : Network) (st : LoopState) :
    ∀ st2, run_loop SHA1 dry_run net (st.passwords.length + 1) st ≠ Step.next st2 :=
  run_loop_stops SHA1 dry_run net _ st (by omega) (by omega)

theorem hex_miss (c : HexCache) (d : Digest)
    (h : ((Cache.hex c).get d).1.1 = EntryStatus.Uncached) :
    map_find c.m_cache ( Digest.extract_hex_prefix d) = none := by
  simp only [Cache.get] at h
  rw [HexCache_get_eq] at h
  split at h
  · assumption
  · split at h <;> simp at h

theorem request_range_ec (x : Exchange) (h1 : x.write_ec = none) (h2 : x.read_ec = none)
    (r : (RangeResults × Bool) × Option error_code) (h : request_range x = Except.ok r) :
    r.2 = none := by
  by_cases h3 : x.response.result_int = 200
  · rw [request_range_200 x h1 h2 h3] at h
    split at h
    · exact Except.noConfusion h
    · injection h with h
      rw [← h]
  · rw [request_range_not_200 x h1 h2 h3] at h
    injection h with h
    rw [← h]

theorem make_prefix_length (SHA1 : List Char → digest_t) (v : List Char) :
    ( Digest.extract_hex_prefix (Digest.make SHA1 v)).length = 5 := by
  have hlen : (Digest.make SHA1 v).m_hexdigest.length = 40 := get_hexdigest_length _
  simp only [ Digest.extract_hex_prefix, List.length_take, hlen]
  rfl

theorem write_target_facts (target pfx : List Char) (ht : target.length = 12)
    (hp : pfx.length = 5) :
    (write_target target pfx).length = 12 ∧ (write_target target pfx).drop 7 = pfx := by
  unfold write_target
  rw [ht]
  have h7 : (target.take (12 - 5)).length = 7 := by
    rw [List.length_take, ht]
    rfl
  refine ⟨by rw [List.length_append, h7, hp], ?_⟩
  rw [List.drop_append_of_le_length (by omega), List.drop_of_length_le (by omega)]
  rfl

theorem sent_once_at_request (SHA1 : List Char → digest_t) (st : LoopState) (pw : Password)
    (hinv : sent_once st)
    (hmiss : (st.cache.get (Digest.make SHA1 pw.value)).1.1 = EntryStatus.Uncached) :
    (at_request SHA1 st pw).target.length = 12 ∧
    sent_prefixes (at_request SHA1 st pw).trace
      = sent_prefixes st.trace ++ [( Digest.extract_hex_prefix (Digest.make SHA1 pw.value))] ∧
    ( Digest.extract_hex_prefix (Digest.make SHA1 pw.value)) ∉ sent_prefixes st.trace ∧
    (sent_prefixes (at_request SHA1 st pw).trace).Nodup ∧
    (at_request SHA1 st pw).cache = st.cache := by
  obtain ⟨ht, ⟨c, hc, hall⟩, hnd⟩ := hinv
  have hw := write_target_facts st.target _ ht (make_prefix_length SHA1 pw.value)
  have hfresh : ( Digest.extract_hex_prefix (Digest.make SHA1 pw.value))
      ∉ sent_prefixes st.trace := by
    intro hmem
    rw [hc] at hmiss
    exact hall _ hmem (hex_miss c _ hmiss)
  have hsent : sent_prefixes (at_request SHA1 st pw).trace
      = sent_prefixes st.trace ++ [( Digest.extract_hex_prefix (Digest.make SHA1 pw.value))] := by
    simp only [sent_prefixes, at_request, List.map_append, List.map_cons, List.map_nil, hw.2]
  refine ⟨hw.1, hsent, hfresh, ?_, Cache_get_miss _ _ hmiss⟩
  rw [hsent]
  exact List.Nodup.append hnd (List.nodup_singleton _)
    (by
      intro a h1 h2
      rw [List.mem_singleton] at h2
      exact hfresh (h2 ▸ h1))

theorem sent_once_step (SHA1 : List Char → digest_t) (net : Network)
    (hnet : no_transport_error net) (st : LoopState) (hinv : sent_once st) :
    (∀ st2, loop_body SHA1 false net st = Step.next st2 → sent_once st2) ∧
    (sent_prefixes (loop_body SHA1 false net st).state.trace).Nodup := by
  by_cases hint : net.interrupted st.current_password_index = true
  · have hb : loop_body SHA1 false net st = Step.done st := by simp [loop_body, hint]
    rw [hb]
    exact ⟨fun _ h => Step.noConfusion h, hinv.2.2⟩
  · by_cases hend : st.current_password_index = st.passwords.length
    · have hb : loop_body SHA1 false net st = Step.done st := by simp [loop_body, hend]
      rw [hb]
      exact ⟨fun _ h => Step.noConfusion h, hinv.2.2⟩
    · cases hget : st.passwords.get? st.current_password_index with
      | none =>
        have hb : loop_body SHA1 false net st = Step.thrown Abort.assertion_failed st := by
          unfold loop_body
          rw [if_neg hint, if_neg hend, hget]
        rw [hb]
        exact ⟨fun _ h => Step.noConfusion h, hinv.2.2⟩
      | some pw =>
        have hint2 : net.interrupted st.current_password_index = false := by
          cases h : net.interrupted st.current_password_index
          · rfl
          · exact absurd h hint
        by_cases hmiss : (st.cache.get (Digest.make SHA1 pw.value)).1.1 = EntryStatus.Uncached
        · obtain ⟨ht, hsent, hfresh, hnd, hcache⟩ := sent_once_at_request SHA1 st pw hinv hmiss
          obtain ⟨_, ⟨c, hc, hall⟩, _⟩ := hinv
          rw [loop_body_miss SHA1 net st pw hint2 hget hmiss]
          cases hreq : request_range (exchange_for SHA1 net st pw) with
          | error a => exact ⟨fun _ h => Step.noConfusion h, hnd⟩
          | ok r =>
            have hec := request_range_ec _ (hnet _ _).1 (hnet _ _).2 r hreq
            have hf := after_exchange_frame net (at_request SHA1 st pw) st.current_password_index
              ( Digest.extract_hex_prefix (Digest.make SHA1 pw.value))
              (Digest.make SHA1 pw.value).extract_hex_suffix r.1.1 r.1.2 r.2
            have hinv2 : sent_once (after_exchange net (at_request SHA1 st pw)
                st.current_password_index
                ( Digest.extract_hex_prefix (Digest.make SHA1 pw.value))
                (Digest.make SHA1 pw.value).extract_hex_suffix r.1.1 r.1.2 r.2) := by
              refine ⟨by rw [hf.2.2.2]; exact ht, ?_, ?_⟩
              · refine ⟨c.put ( Digest.extract_hex_prefix (Digest.make SHA1 pw.value))
                  r.1.1.values, ?_, ?_⟩
                · rw [hec, after_exchange_cache, hcache, hc]
                  rfl
                · intro p hp
                  simp only [sent_prefixes, hf.2.2.1] at hp
                  have hp2 : p ∈ sent_prefixes (at_request SHA1 st pw).trace := hp
                  rw [hsent, List.mem_append, List.mem_singleton] at hp2
                  simp only [HexCache.put]
                  rcases hp2 with hp2 | hp2
                  · by_cases hpe : p = ( Digest.extract_hex_prefix (Digest.make SHA1 pw.value))
                    · rw [hpe, map_find_assign_self]
                      exact Option.noConfusion
                    · rw [map_find_assign_ne _ _ _ _ hpe]
                      exact hall p hp2
                  · rw [hp2, map_find_assign_self]
                    exact Option.noConfusion
              · simp only [sent_prefixes, hf.2.2.1]
                exact hnd
            refine ⟨?_, hinv2.2.2⟩
            intro st2 h
            injection h with h
            rw [← h]
            exact hinv2
        · rw [loop_body_hit SHA1 false net st pw hint2 hget hmiss]
          obtain ⟨ht, ⟨c, hc, hall⟩, hnd⟩ := hinv
          have hinv2 : sent_once (record_result
              { st with
                current_password_index := st.current_password_index + 1
                cache := (st.cache.get (Digest.make SHA1 pw.value)).2 }
              st.current_password_index (st.cache.get (Digest.make SHA1 pw.value)).1.2 0) := by
            refine ⟨ht, ⟨(c.get (Digest.make SHA1 pw.value)).2, ?_, ?_⟩, hnd⟩
            · simp only [record_result, hc, Cache.get]
            · intro p hp
              rw [HexCache_get_m_cache]
              exact hall p hp
          refine ⟨?_, hinv2.2.2⟩
          intro st2 h
          injection h with h
          rw [← h]
          exact hinv2

theorem sent_once_run (SHA1 : List Char → digest_t) (net : Network)
    (hnet : no_transport_error net) (fuel : Nat) :
    ∀ st : LoopState, sent_once st →
      (sent_prefixes (run_loop SHA1 false net fuel st).state.trace).Nodup := by
  induction fuel with
  | zero => intro st hinv; exact hinv.2.2
  | succ k ih =>
    intro st hinv
    have hstep := sent_once_step SHA1 net hnet st hinv
    simp only [run_loop]
    split
    · rename_i st1 hb
      exact ih st1 (hstep.1 st1 hb)
    · rename_i r hr
      exact hstep.2

theorem entry_state_sent_once (passwords : List Password) (cursor : Nat)
    (progress : Progress) (c0 : HexCache) (ec : Option error_code) :
    sent_once (entry_state passwords cursor progress (Cache.hex c0) ec) :=
  ⟨rfl, ⟨c0, rfl, fun _ hp => absurd hp (List.not_mem_nil _)⟩, List.nodup_nil⟩

theorem get_passwords_count_trace (SHA1 : List Char → digest_t) (dry_run : Bool)
    (net : Network) (passwords : List Password) (cursor : Nat) (progress : Progress)
    (cache : Cache) :
    (get_passwords_count SHA1 dry_run net passwords cursor progress cache).state.trace.requests
      = if get_stream dry_run (net.connect 0) none ≠ none then []
        else (run_loop SHA1 dry_run net (passwords.length + 1)
          (entry_state passwords cursor progress cache
            (get_stream dry_run (net.connect 0) none))).state.trace.requests := by
  unfold get_passwords_count
  simp only []
  split
  · rfl
  · split
    · rename_i a st hr
      rw [hr]
    · rfl

theorem after_exchange_passwords (net : Network) (st : LoopState) (idx : Nat)
    (pfx : hexprefix_t) (suffix : hexsuffix_t) (rr : RangeResults) (cc : Bool)
    (ec : Option error_code) :
    (after_exchange net st idx pfx suffix rr cc ec).passwords
      = st.passwords.modify
          (fun pw => { pw with count := count_of rr.values suffix, checked := true }) idx := by
  cases ec with
  | none => cases cc <;> simp [after_exchange, record_result]
  | some e =>
    by_cases he : e = error_code.timeout <;> cases cc <;>
      simp [after_exchange, record_result, he]

theorem hex_hit_after_put (c : HexCache) (values : values_t) (d : Digest) :
    ((Cache.hex (c.put ( Digest.extract_hex_prefix d) values)).get d).1.1
      ≠ EntryStatus.Uncached := by
  simp only [Cache.get]
  rw [HexCache_get_eq]
  simp only [HexCache.put, map_find_assign_self]
  split <;> simp

theorem loop_body_at_end (SHA1 : List Char → digest_t) (dry_run : Bool) (net : Network)
    (st : LoopState) (h : st.current_password_index = st.passwords.length) :
    loop_body SHA1 dry_run net st = Step.done st := by
  simp [loop_body, h]

theorem duplicate_inputs_run (SHA1 : List Char → digest_t) (net : Network)
    (hnet : no_transport_error net) (v : List Char) (c0 : HexCache) (st : LoopState)
    (hi0 : net.interrupted 0 = false) (hi1 : net.interrupted 1 = false)
    (hfresh : map_find c0.m_cache ( Digest.extract_hex_prefix (Digest.make SHA1 v)) = none)
    (hpw : st.passwords = [{ value := v, count := 0, checked := false },
      { value := v, count := 0, checked := false }])
    (hcur : st.current_password_index = 0) (hcache : st.cache = Cache.hex c0)
    (htgt : st.target = "/range/XXXXX".toList) (hreqs : st.trace.requests = []) :
    (run_loop SHA1 false net 3 st).state.trace.requests
      = ["/range/".toList ++ ( Digest.extract_hex_prefix (Digest.make SHA1 v))] := by
  have hmiss : (st.cache.get (Digest.make SHA1 v)).1.1 = EntryStatus.Uncached := by
    rw [hcache]
    simp only [Cache.get]
    rw [HexCache_get_eq, hfresh]
  have hreq0 : (at_request SHA1 st { value := v, count := 0, checked := false }).trace.requests
      = ["/range/".toList ++ ( Digest.extract_hex_prefix (Digest.make SHA1 v))] := by
    simp only [at_request, hreqs, htgt, List.nil_append]
    rfl
  -- the first pass misses the cache and sends the request
  have hb1 := loop_body_miss SHA1 net st { value := v, count := 0, checked := false }
    (by rw [hcur]; exact hi0) (by rw [hcur, hpw]; rfl) hmiss
  cases hreq : request_range (exchange_for SHA1 net st
    { value := v, count := 0, checked := false }) with
  | error a =>
    rw [hreq] at hb1
    simp only at hb1
    simp only [run_loop, hb1, Step.state, hreq0]
  | ok r =>
    rw [hreq] at hb1
    simp only at hb1
    have hec := request_range_ec _ (hnet _ _).1 (hnet _ _).2 r hreq
    have hf := after_exchange_frame net
      (at_request SHA1 st { value := v, count := 0, checked := false })
      st.current_password_index ( Digest.extract_hex_prefix (Digest.make SHA1 v))
      (Digest.make SHA1 v).extract_hex_suffix r.1.1 r.1.2 r.2
    have hpw1 := after_exchange_passwords net
      (at_request SHA1 st { value := v, count := 0, checked := false })
      st.current_password_index ( Digest.extract_hex_prefix (Digest.make SHA1 v))
      (Digest.make SHA1 v).extract_hex_suffix r.1.1 r.1.2 r.2
    have hcache1 : (after_exchange net
        (at_request SHA1 st { value := v, count := 0, checked := false })
        st.current_password_index ( Digest.extract_hex_prefix (Digest.make SHA1 v))
        (Digest.make SHA1 v).extract_hex_suffix r.1.1 r.1.2 r.2).cache = Cache.hex
        (c0.put ( Digest.extract_hex_prefix (Digest.make SHA1 v)) r.1.1.values) := by
      rw [hec, after_exchange_cache]
      simp only [at_request]
      rw [Cache_get_miss _ _ hmiss, hcache]
      rfl
    generalize after_exchange net
      (at_request SHA1 st { value := v, count := 0, checked := false })
      st.current_password_index ( Digest.extract_hex_prefix (Digest.make SHA1 v))
      (Digest.make SHA1 v).extract_hex_suffix r.1.1 r.1.2 r.2 = st1 at hb1 hf hpw1 hcache1
    have hcur1 : st1.current_password_index = 1 := by
      rw [hf.1]
      simp only [at_request, hcur]
    have hget1 : st1.passwords.get? st1.current_password_index
        = some { value := v, count := 0, checked := false } := by
      rw [hcur1, hpw1, hcur]
      simp [at_request, hpw, List.modify]
    have hlen1 : st1.passwords.length = 2 := by
      rw [hf.2.1]
      simp only [at_request, hpw]
      rfl
    -- the second pass finds the prefix in the cache
    have hhit : (st1.cache.get (Digest.make SHA1
        ({ value := v, count := 0, checked := false } : Password).value)).1.1
        ≠ EntryStatus.Uncached := by
      rw [hcache1]
      exact hex_hit_after_put _ _ _
    have hb2 := loop_body_hit SHA1 false net st1 { value := v, count := 0, checked := false }
      (by rw [hcur1]; exact hi1) hget1 hhit
    -- the third pass finds the cursor at the end
    simp only [run_loop, hb1, hb2]
    rw [loop_body_at_end _ _ _ _ (by simp [record_result, hcur1, hlen1])]
    simp only [Step.state, record_result, hf.2.2.1, hreq0]

/-- C10: for one worker loop on a `HexCache`, not in a dry run, with a server none of whose
exchanges ends with a transport error: a pass whose cache lookup is `ValueCached` or
`PrefixCached` sends no request; over the whole run of `get_passwords_count`, for every
input list, no 5-character prefix is sent twice (a run that an exception ends is counted up
to that point); and two records with the same value cause exactly one request when the
connection opens, no interruption occurs and the prefix is not in the cache at the start. -/
theorem sequential_worker_sends_prefix_once (SHA1 : List Char → digest_t) (net : Network)
    (hnet : no_transport_error net) :
    (∀ (dry_run : Bool) (st : LoopState) (pw : Password),
      net.interrupted st.current_password_index = false →
      st.passwords.get? st.current_password_index = some pw →
      (st.cache.get (Digest.make SHA1 pw.value)).1.1 ≠ EntryStatus.Uncached →
      ∃ st2, loop_body SHA1 dry_run net st = Step.next st2 ∧
        st2.trace.requests = st.trace.requests) ∧
    (∀ (passwords : List Password) (cursor : Nat) (progress : Progress) (c0 : HexCache),
      (sent_prefixes (get_passwords_count SHA1 false net passwords cursor progress
        (Cache.hex c0)).state.trace).Nodup) ∧
    (∀ (v : List Char) (c0 : HexCache) (progress : Progress),
      net.connect 0 = (none, none) → net.interrupted 0 = false → net.interrupted 1 = false →
      map_find c0.m_cache ( Digest.extract_hex_prefix (Digest.make SHA1 v)) = none →
      (get_passwords_count SHA1 false net
        [{ value := v, count := 0, checked := false },
          { value := v, count := 0, checked := false }]
        0 progress (Cache.hex c0)).state.trace.requests
        = ["/range/".toList ++ ( Digest.extract_hex_prefix (Digest.make SHA1 v))]) := by
  refine ⟨?_, ?_, ?_⟩
  · intro dry_run st pw hint hget hhit
    exact ⟨_, loop_body_hit SHA1 dry_run net st pw hint hget hhit, rfl⟩
  · intro passwords cursor progress c0
    simp only [sent_prefixes]
    rw [get_passwords_count_trace]
    split
    · exact List.nodup_nil
    · exact sent_once_run SHA1 net hnet _ _ (entry_state_sent_once _ _ _ _ _)
  · intro v c0 progress hconn hi0 hi1 hfresh
    rw [get_passwords_count_trace]
    have hgs : get_stream false (net.connect 0) none = none := by
      simp [get_stream, hconn]
    rw [hgs, if_neg (by simp)]
    exact duplicate_inputs_run SHA1 net hnet v c0 _ hi0 hi1 hfresh rfl rfl rfl rfl rfl

theorem sequential_worker_sends_prefix_once_witness :
    (get_passwords_count example_SHA1 false (network_answering exchange_503)
      [{ value := "abc".toList, count := 0, checked := false },
        { value := "abc".toList, count := 0, checked := false }]
      0 Progress.zero (Cache.hex HexCache.empty)).state.trace.requests
      = ["/range/".toList ++
          ( Digest.extract_hex_prefix (Digest.make example_SHA1 "abc".toList))] :=
  (sequential_worker_sends_prefix_once example_SHA1 (network_answering exchange_503)
    (fun _ _ => ⟨rfl, rfl⟩)).2.2 "abc".toList HexCache.empty Progress.zero rfl rfl rfl
    (by decide)

/-! ## main.cpp: the worker loops of one thread in a dry run -/

theorem set_get (l : List Place) (w : Nat) (p : Place) (hw : w < l.length) (w2 : Nat)
    (q : Place) :
    (l.set w p)[w2]? = some q ↔ (w2 = w ∧ q = p) ∨ (w2 ≠ w ∧ l[w2]? = some q) := by
  rw [List.getElem?_set]
  by_cases h : w = w2
  · subst h
    simp [hw, eq_comm]
  · have h2 : ¬ w2 = w := fun e => h e.symm
    simp [h, h2]

theorem lt_of_get {l : List Place} {w : Nat} {p : Place} (h : l[w]? = some p) :
    w < l.length := by
  obtain ⟨hlt, _⟩ := List.getElem?_eq_some.1 h
  exact hlt

theorem modify_checked (pws : List Password) (idx count j : Nat)
    (hj : j = idx ∧ idx < pws.length ∨ ∃ pw, pws[j]? = some pw ∧ pw.checked = true) :
    ∃ pw, (pws.modify (fun pw => { pw with count := count, checked := true }) idx)[j]?
      = some pw ∧ pw.checked = true := by
  rw [List.getElem?_modify]
  rcases hj with ⟨rfl, hlt⟩ | ⟨pw, hpw, hc⟩
  · rw [List.getElem?_eq_getElem hlt]
    exact ⟨{ pws[j] with count := count, checked := true }, by simp, rfl⟩
  · rw [hpw]
    by_cases h : idx = j
    · exact ⟨{ pw with count := count, checked := true }, by simp [h], rfl⟩
    · exact ⟨pw, by simp [h], hc⟩

theorem inv_resume_in_post (N W : Nat) (s : UnitState) (w idx : Nat) (hinv : UnitInv N W s)
    (hrun : s.running = none) (hw : s.workers[w]? = some (Place.in_post idx)) :
    UnitInv N W { unit_record s idx 0 0 with
      workers := s.workers.set w Place.loop_top, running := some w } := by
  have hwl := lt_of_get hw
  have hp := hinv.pending w idx hw
  constructor
  · simp [unit_record, hinv.len]
  · simp [hinv.workers_len]
  · exact hinv.cursor_le
  · exact hinv.claimed
  · simp only [unit_record]
    exact List.Nodup.append hinv.writes_nodup (List.nodup_singleton _)
      (by
        intro a h1 h2
        rw [List.mem_singleton] at h2
        exact hp.2 (h2 ▸ h1))
  · intro j hj
    simp only [unit_record, List.mem_append, List.mem_singleton] at hj
    rcases hj with hj | hj
    · exact hinv.writes_lt j hj
    · rw [hj]; exact hp.1
  · intro j hj
    simp only [unit_record, List.mem_append, List.mem_singleton] at hj
    apply modify_checked
    rcases hj with hj | hj
    · exact Or.inr (hinv.writes_checked j hj)
    · exact Or.inl ⟨hj, by rw [hinv.len]; exact Nat.lt_of_lt_of_le hp.1 hinv.cursor_le⟩
  · intro j hj
    simp only [unit_record, List.mem_append, List.mem_singleton]
    rcases hinv.cover j hj with h | ⟨w2, h⟩
    · exact Or.inl (Or.inl h)
    · by_cases hw2 : w2 = w
      · rw [hw2, hw] at h
        injection h with h
        injection h with h
        exact Or.inl (Or.inr h.symm)
      · exact Or.inr ⟨w2, (set_get _ _ _ hwl _ _).2 (Or.inr ⟨hw2, h⟩)⟩
  · intro w2 j h
    rcases (set_get _ _ _ hwl _ _).1 h with ⟨_, h2⟩ | ⟨hne, h2⟩
    · exact Place.noConfusion h2
    · have := hinv.pending w2 j h2
      refine ⟨this.1, ?_⟩
      simp only [unit_record, List.mem_append, List.mem_singleton, not_or]
      refine ⟨this.2, ?_⟩
      intro hji
      rw [hji] at h2
      exact hne (hinv.pending_inj w2 w idx h2 hw)
  · intro w1 w2 j h1 h2
    rcases (set_get _ _ _ hwl _ _).1 h1 with ⟨_, e1⟩ | ⟨_, e1⟩
    · exact Place.noConfusion e1
    · rcases (set_get _ _ _ hwl _ _).1 h2 with ⟨_, e2⟩ | ⟨_, e2⟩
      · exact Place.noConfusion e2
      · exact hinv.pending_inj w1 w2 j e1 e2
  · intro w2 h
    apply hinv.finished w2
    rcases h with h | h
    · rcases (set_get _ _ _ hwl _ _).1 h with ⟨_, e⟩ | ⟨_, e⟩
      · exact Place.noConfusion e
      · exact Or.inl e
    · rcases (set_get _ _ _ hwl _ _).1 h with ⟨_, e⟩ | ⟨_, e⟩
      · exact Place.noConfusion e
      · exact Or.inr e
  · intro w2
    constructor
    · intro h
      rcases (set_get _ _ _ hwl _ _).1 h with ⟨e, _⟩ | ⟨_, e⟩
      · rw [e]
      · have := (hinv.holder w2).1 e
        rw [hrun] at this
        exact Option.noConfusion this
    · intro h
      injection h with h
      exact (set_get _ _ _ hwl _ _).2 (Or.inl ⟨h.symm, rfl⟩)

theorem inv_move (N W : Nat) (s : UnitState) (w : Nat) (p_old p_new : Place)
    (r : Option Nat) (hinv : UnitInv N W s) (hw : s.workers[w]? = some p_old)
    (hold : ∀ j, p_old ≠ Place.in_post j) (hnew : ∀ j, p_new ≠ Place.in_post j)
    (hfin : p_new = Place.in_close_stream ∨ p_new = Place.returned →
      s.current_password_index = N)
    (hhold : ∀ w2 : Nat, (w2 = w ∧ p_new = Place.loop_top) ∨
      (w2 ≠ w ∧ s.workers[w2]? = some Place.loop_top) ↔ r = some w2) :
    UnitInv N W { s with workers := s.workers.set w p_new, running := r } := by
  have hwl := lt_of_get hw
  have hkeep : ∀ (w2 j : Nat), (s.workers.set w p_new)[w2]? = some (Place.in_post j) ↔
      s.workers[w2]? = some (Place.in_post j) := by
    intro w2 j
    rw [set_get _ _ _ hwl]
    constructor
    · rintro (⟨_, e⟩ | ⟨_, e⟩)
      · exact absurd e.symm (hnew j)
      · exact e
    · intro e
      refine Or.inr ⟨?_, e⟩
      intro h
      rw [h, hw] at e
      injection e with e
      exact hold j e
  constructor
  · exact hinv.len
  · simp [hinv.workers_len]
  · exact hinv.cursor_le
  · exact hinv.claimed
  · exact hinv.writes_nodup
  · exact hinv.writes_lt
  · exact hinv.writes_checked
  · intro j hj
    rcases hinv.cover j hj with h | ⟨w2, h⟩
    · exact Or.inl h
    · exact Or.inr ⟨w2, (hkeep w2 j).2 h⟩
  · intro w2 j h
    exact hinv.pending w2 j ((hkeep w2 j).1 h)
  · intro w1 w2 j h1 h2
    exact hinv.pending_inj w1 w2 j ((hkeep w1 j).1 h1) ((hkeep w2 j).1 h2)
  · intro w2 h
    have key : ∀ q, (q = Place.in_close_stream ∨ q = Place.returned) →
        (s.workers.set w p_new)[w2]? = some q → s.current_password_index = N := by
      intro q hq h
      rcases (set_get _ _ _ hwl _ _).1 h with ⟨_, e⟩ | ⟨_, e⟩
      · exact hfin (e ▸ hq)
      · apply hinv.finished w2
        rcases hq with hq | hq
        · exact Or.inl (hq ▸ e)
        · exact Or.inr (hq ▸ e)
    rcases h with h | h
    · exact key _ (Or.inl rfl) h
    · exact key _ (Or.inr rfl) h
  · intro w2
    show (s.workers.set w p_new)[w2]? = some Place.loop_top ↔ r = some w2
    rw [set_get _ _ _ hwl, ← hhold w2]
    constructor
    · rintro (⟨e1, e2⟩ | h)
      · exact Or.inl ⟨e1, e2.symm⟩
      · exact Or.inr h
    · rintro (⟨e1, e2⟩ | h)
      · exact Or.inl ⟨e1, e2.symm⟩
      · exact Or.inr h

theorem inv_resume (N W : Nat) (s s2 : UnitState) (w : Nat) (p : Place)
    (hinv : UnitInv N W s) (hrun : s.running = none) (hw : s.workers[w]? = some p)
    (h : resume s w p = some s2) : UnitInv N W s2 := by
  have hnone : ∀ w2 : Nat, ¬ s.workers[w2]? = some Place.loop_top := by
    intro w2 h2
    have := (hinv.holder w2).1 h2
    rw [hrun] at this
    exact Option.noConfusion this
  cases p with
  | spawned =>
    simp only [resume, Option.some.injEq] at h
    rw [← h]
    have := inv_move N W s w Place.spawned Place.in_get_stream none hinv hw
      (fun j => Place.noConfusion) (fun j => Place.noConfusion)
      (by rintro (h | h) <;> exact Place.noConfusion h)
      (by
        intro w2
        constructor
        · rintro (⟨_, e⟩ | ⟨_, e⟩)
          · exact Place.noConfusion e
          · exact absurd e (hnone w2)
        · intro e; exact Option.noConfusion e)
    rw [← hrun] at this
    exact this
  | in_get_stream =>
    simp only [resume, Option.some.injEq] at h
    rw [← h]
    exact inv_move N W s w Place.in_get_stream Place.loop_top (some w) hinv hw
      (fun j => Place.noConfusion) (fun j => Place.noConfusion)
      (by rintro (h | h) <;> exact Place.noConfusion h)
      (by
        intro w2
        constructor
        · rintro (⟨e, _⟩ | ⟨_, e⟩)
          · rw [e]
          · exact absurd e (hnone w2)
        · intro e
          injection e with e
          exact Or.inl ⟨e.symm, rfl⟩)
  | loop_top => exact Option.noConfusion h
  | in_post idx =>
    simp only [resume, Option.some.injEq] at h
    rw [← h]
    exact inv_resume_in_post N W s w idx hinv hrun hw
  | in_close_stream =>
    simp only [resume, Option.some.injEq] at h
    rw [← h]
    have := inv_move N W s w Place.in_close_stream Place.returned none hinv hw
      (fun j => Place.noConfusion) (fun j => Place.noConfusion)
      (fun _ => hinv.finished w (Or.inl hw))
      (by
        intro w2
        constructor
        · rintro (⟨_, e⟩ | ⟨_, e⟩)
          · exact Place.noConfusion e
          · exact absurd e (hnone w2)
        · intro e; exact Option.noConfusion e)
    rw [← hrun] at this
    exact this
  | returned => exact Option.noConfusion h

theorem claimed_succ (claims : List (Nat × Nat)) (w cursor : Nat)
    (h : claims.map Prod.snd = List.range cursor) :
    (claims ++ [(w, cursor)]).map Prod.snd = List.range (cursor + 1) := by
  rw [List.map_append, h, List.range_succ]
  rfl

theorem inv_claim_miss (N W : Nat) (s : UnitState) (w : Nat) (cache2 : Cache)
    (hinv : UnitInv N W s) (hrun : s.running = some w)
    (hlt : s.current_password_index < N) :
    UnitInv N W
      { s with
        current_password_index := s.current_password_index + 1
        cache := cache2
        claims := s.claims ++ [(w, s.current_password_index)]
        workers := s.workers.set w (Place.in_post s.current_password_index)
        running := none } := by
  have hw : s.workers[w]? = some Place.loop_top := (hinv.holder w).2 hrun
  have hwl := lt_of_get hw
  constructor
  · exact hinv.len
  · simp [hinv.workers_len]
  · exact hlt
  · exact claimed_succ _ _ _ hinv.claimed
  · exact hinv.writes_nodup
  · intro j hj
    exact Nat.lt_succ_of_lt (hinv.writes_lt j hj)
  · exact hinv.writes_checked
  · intro j hj
    rcases Nat.lt_succ_iff_lt_or_eq.1 hj with h | h
    · rcases hinv.cover j h with h2 | ⟨w2, h2⟩
      · exact Or.inl h2
      · refine Or.inr ⟨w2, (set_get _ _ _ hwl _ _).2 (Or.inr ⟨?_, h2⟩)⟩
        intro e
        rw [e, hw] at h2
        exact Place.noConfusion (Option.some.inj h2)
    · exact Or.inr ⟨w, (set_get _ _ _ hwl _ _).2 (Or.inl ⟨rfl, by rw [h]⟩)⟩
  · intro w2 j h
    rcases (set_get _ _ _ hwl _ _).1 h with ⟨_, e⟩ | ⟨_, e⟩
    · injection e with e
      rw [e]
      exact ⟨Nat.lt_succ_self _, fun hm => Nat.lt_irrefl _ (hinv.writes_lt _ hm)⟩
    · have := hinv.pending w2 j e
      exact ⟨Nat.lt_succ_of_lt this.1, this.2⟩
  · intro w1 w2 j h1 h2
    rcases (set_get _ _ _ hwl _ _).1 h1 with ⟨a1, e1⟩ | ⟨a1, e1⟩ <;>
      rcases (set_get _ _ _ hwl _ _).1 h2 with ⟨a2, e2⟩ | ⟨a2, e2⟩
    · rw [a1, a2]
    · injection e1 with e1
      have := (hinv.pending w2 j e2).1
      omega
    · injection e2 with e2
      have := (hinv.pending w1 j e1).1
      omega
    · exact hinv.pending_inj w1 w2 j e1 e2
  · intro w2 h
    have key : ∀ q, (q = Place.in_close_stream ∨ q = Place.returned) →
        (s.workers.set w (Place.in_post s.current_password_index))[w2]? = some q →
        s.current_password_index + 1 = N := by
      intro q hq h
      rcases (set_get _ _ _ hwl _ _).1 h with ⟨_, e⟩ | ⟨_, e⟩
      · rcases hq with hq | hq <;> rw [hq] at e <;> exact Place.noConfusion e
      · have : s.current_password_index = N := by
          apply hinv.finished w2
          rcases hq with hq | hq
          · exact Or.inl (hq ▸ e)
          · exact Or.inr (hq ▸ e)
        omega
    rcases h with h | h
    · exact key _ (Or.inl rfl) h
    · exact key _ (Or.inr rfl) h
  · intro w2
    constructor
    · intro h
      rcases (set_get _ _ _ hwl _ _).1 h with ⟨_, e⟩ | ⟨a, e⟩
      · exact Place.noConfusion e
      · have := (hinv.holder w2).1 e
        rw [hrun] at this
        injection this with this
        exact absurd this.symm a
    · intro h
      exact Option.noConfusion h

theorem inv_claim_hit (N W : Nat) (s : UnitState) (w : Nat) (cache2 : Cache) (value : Nat)
    (hinv : UnitInv N W s) (hlt : s.current_password_index < N) :
    UnitInv N W (unit_record
      { s with
        current_password_index := s.current_password_index + 1
        cache := cache2
        claims := s.claims ++ [(w, s.current_password_index)] }
      s.current_password_index value 0) := by
  have hfresh : s.current_password_index ∉ s.writes :=
    fun hm => Nat.lt_irrefl _ (hinv.writes_lt _ hm)
  constructor
  · simp [unit_record, hinv.len]
  · exact hinv.workers_len
  · exact hlt
  · exact claimed_succ _ _ _ hinv.claimed
  · simp only [unit_record]
    exact List.Nodup.append hinv.writes_nodup (List.nodup_singleton _)
      (by
        intro a h1 h2
        rw [List.mem_singleton] at h2
        exact hfresh (h2 ▸ h1))
  · intro j hj
    simp only [unit_record, List.mem_append, List.mem_singleton] at hj
    rcases hj with hj | hj
    · exact Nat.lt_succ_of_lt (hinv.writes_lt j hj)
    · rw [hj]; exact Nat.lt_succ_self _
  · intro j hj
    simp only [unit_record, List.mem_append, List.mem_singleton] at hj
    apply modify_checked
    rcases hj with hj | hj
    · exact Or.inr (hinv.writes_checked j hj)
    · exact Or.inl ⟨hj, by rw [hinv.len]; exact hlt⟩
  · intro j hj
    simp only [unit_record, List.mem_append, List.mem_singleton]
    rcases Nat.lt_succ_iff_lt_or_eq.1 hj with h | h
    · rcases hinv.cover j h with h2 | h2
      · exact Or.inl (Or.inl h2)
      · exact Or.inr h2
    · exact Or.inl (Or.inr h)
  · intro w2 j h
    have := hinv.pending w2 j h
    refine ⟨Nat.lt_succ_of_lt this.1, ?_⟩
    simp only [unit_record, List.mem_append, List.mem_singleton, not_or]
    exact ⟨this.2, Nat.ne_of_lt this.1⟩
  · exact hinv.pending_inj
  · intro w2 h
    have := hinv.finished w2 h
    omega
  · exact hinv.holder

theorem inv_loop_top_step (SHA1 : List Char → digest_t) (N W : Nat) (s s2 : UnitState)
    (w : Nat) (hinv : UnitInv N W s) (hrun : s.running = some w)
    (h : loop_top_step SHA1 s w = some s2) : UnitInv N W s2 := by
  have hw : s.workers[w]? = some Place.loop_top := (hinv.holder w).2 hrun
  unfold loop_top_step at h
  split at h
  · rename_i hend
    injection h with h
    rw [← h]
    exact inv_move N W s w Place.loop_top Place.in_close_stream none hinv hw
      (fun j => Place.noConfusion) (fun j => Place.noConfusion)
      (fun _ => by rw [hend, hinv.len])
      (by
        intro w2
        constructor
        · rintro (⟨_, e⟩ | ⟨a, e⟩)
          · exact Place.noConfusion e
          · have := (hinv.holder w2).1 e
            rw [hrun] at this
            injection this with this
            exact absurd this.symm a
        · intro e; exact Option.noConfusion e)
  · rename_i hend
    have hlt : s.current_password_index < N := by
      have := hinv.cursor_le
      have := hinv.len
      omega
    split at h
    · exact Option.noConfusion h
    · simp only at h
      split at h
      · injection h with h
        rw [← h]
        exact inv_claim_hit N W s w _ _ hinv hlt
      · injection h with h
        rw [← h]
        exact inv_claim_miss N W s w _ hinv hrun hlt

theorem inv_start (passwords : List Password) (progress : Progress) (cache : Cache) (W : Nat) :
    UnitInv passwords.length W (unit_start passwords progress cache W) := by
  have hrep : ∀ (w : Nat) (q : Place), (List.replicate W Place.spawned)[w]? = some q →
      q = Place.spawned := by
    intro w q h
    rw [List.getElem?_replicate] at h
    split at h
    · exact (Option.some.inj h).symm
    · exact Option.noConfusion h
  constructor
  · rfl
  · simp [unit_start]
  · exact Nat.zero_le _
  · rfl
  · exact List.nodup_nil
  · intro idx h; exact absurd h (List.not_mem_nil _)
  · intro idx h; exact absurd h (List.not_mem_nil _)
  · intro idx h; exact absurd h (Nat.not_lt_zero _)
  · intro w idx h; exact Place.noConfusion (hrep w _ h)
  · intro w1 w2 idx h; exact Place.noConfusion (hrep w1 _ h)
  · intro w h
    rcases h with h | h <;> exact Place.noConfusion (hrep w _ h)
  · intro w
    constructor
    · intro h; exact Place.noConfusion (hrep w _ h)
    · intro h; exact Option.noConfusion h

theorem inv_unit_step (SHA1 : List Char → digest_t) (N W : Nat) (s s2 : UnitState) (w : Nat)
    (hinv : UnitInv N W s) (h : unit_step SHA1 s w = some s2) : UnitInv N W s2 := by
  unfold unit_step at h
  split at h
  · rename_i r hr
    split at h
    · rename_i hc
      rw [hc.1] at hr
      exact inv_loop_top_step SHA1 N W s s2 w hinv hr h
    · exact Option.noConfusion h
  · rename_i hr
    split at h
    · rename_i p hp
      exact inv_resume N W s s2 w p hinv hr hp h
    · exact Option.noConfusion h

theorem sum_rank_set (l : List Place) (p_old p_new : Place) :
    ∀ w : Nat, l[w]? = some p_old →
      ((l.set w p_new).map Place.rank).sum + p_old.rank
        = (l.map Place.rank).sum + p_new.rank := by
  induction l with
  | nil => intro w h; simp at h
  | cons a tl ih =>
    intro w h
    cases w with
    | zero =>
      simp only [List.getElem?_cons_zero, Option.some.injEq] at h
      simp only [List.set_cons_zero, List.map_cons, List.sum_cons, h]
      omega
    | succ k =>
      simp only [List.getElem?_cons_succ] at h
      have := ih k h
      simp only [List.set_cons_succ, List.map_cons, List.sum_cons]
      omega

theorem steps_left_step (SHA1 : List Char → digest_t) (s s2 : UnitState) (w : Nat)
    (h : unit_step SHA1 s w = some s2) : steps_left s2 + 1 ≤ steps_left s := by
  unfold unit_step at h
  split at h
  · split at h
    · rename_i hc
      have hsum := sum_rank_set s.workers Place.loop_top
      unfold loop_top_step at h
      split at h
      · injection h with h
        rw [← h]
        have := hsum Place.in_close_stream w hc.2
        simp only [steps_left, Place.rank] at this ⊢
        omega
      · rename_i hend
        split at h
        · exact Option.noConfusion h
        · rename_i pw hget
          have hlt : s.current_password_index < s.passwords.length := (List.getElem?_eq_some.1 hget).1
          simp only at h
          split at h
          · injection h with h
            rw [← h]
            simp only [steps_left, unit_record, List.length_modify]
            omega
          · injection h with h
            rw [← h]
            have := hsum (Place.in_post s.current_password_index) w hc.2
            simp only [steps_left, Place.rank] at this ⊢
            omega
    · exact Option.noConfusion h
  · split at h
    · rename_i p hp
      have hsum := sum_rank_set s.workers p
      cases p with
      | spawned =>
        injection h with h
        rw [← h]
        have := hsum Place.in_get_stream w hp
        simp only [steps_left, Place.rank] at this ⊢
        omega
      | in_get_stream =>
        injection h with h
        rw [← h]
        have := hsum Place.loop_top w hp
        simp only [steps_left, Place.rank] at this ⊢
        omega
      | loop_top => exact Option.noConfusion h
      | in_post idx =>
        injection h with h
        rw [← h]
        have := hsum Place.loop_top w hp
        simp only [steps_left, Place.rank, unit_record, List.length_modify] at this ⊢
        omega
      | in_close_stream =>
        injection h with h
        rw [← h]
        have := hsum Place.returned w hp
        simp only [steps_left, Place.rank] at this ⊢
        omega
      | returned => exact Option.noConfusion h
    · exact Option.noConfusion h

theorem inv_run_schedule (SHA1 : List Char → digest_t) (N W : Nat) (choices : List Nat) :
    ∀ s s2 : UnitState, UnitInv N W s → run_schedule SHA1 s choices = some s2 →
      UnitInv N W s2 ∧ choices.length + steps_left s2 ≤ steps_left s := by
  induction choices with
  | nil =>
    intro s s2 hinv h
    simp only [run_schedule, Option.some.injEq] at h
    rw [← h]
    exact ⟨hinv, by simp⟩
  | cons w rest ih =>
    intro s s2 hinv h
    simp only [run_schedule] at h
    split at h
    · rename_i s1 hs1
      have h1 := ih s1 s2 (inv_unit_step SHA1 N W s s1 w hinv hs1) h
      have h2 := steps_left_step SHA1 s s1 w hs1
      refine ⟨h1.1, ?_⟩
      simp only [List.length_cons]
      omega
    · exact Option.noConfusion h

theorem unit_progress (SHA1 : List Char → digest_t) (N W : Nat) (s : UnitState)
    (hinv : UnitInv N W s) (hnot : ¬ all_returned s) :
    ∃ w s2, unit_step SHA1 s w = some s2 := by
  cases hrun : s.running with
  | some r =>
    have hw : s.workers[r]? = some Place.loop_top := (hinv.holder r).2 hrun
    refine ⟨r, ?_⟩
    simp only [unit_step, hrun, hw, and_self, if_true]
    unfold loop_top_step
    split
    · exact ⟨_, rfl⟩
    · rename_i hend
      have hlt : s.current_password_index < s.passwords.length := by
        have := hinv.cursor_le
        have := hinv.len
        omega
      rw [List.getElem?_eq_getElem hlt]
      simp only
      split
      · exact ⟨_, rfl⟩
      · exact ⟨_, rfl⟩
  | none =>
    unfold all_returned at hnot
    push_neg at hnot
    obtain ⟨p, hp, hne⟩ := hnot
    obtain ⟨w, hw⟩ := List.mem_iff_getElem?.1 hp
    refine ⟨w, ?_⟩
    simp only [unit_step, hrun, hw]
    cases p with
    | spawned => exact ⟨_, rfl⟩
    | in_get_stream => exact ⟨_, rfl⟩
    | loop_top =>
      have := (hinv.holder w).1 hw
      rw [hrun] at this
      exact Option.noConfusion this
    | in_post idx => exact ⟨_, rfl⟩
    | in_close_stream => exact ⟨_, rfl⟩
    | returned => exact absurd rfl hne

theorem steps_left_start (passwords : List Password) (progress : Progress) (cache : Cache)
    (W : Nat) :
    steps_left (unit_start passwords progress cache W) = 4 * W + 2 * passwords.length := by
  simp [steps_left, unit_start, Place.rank]
  omega

theorem inv_all_returned (N W : Nat) (s : UnitState) (hinv : UnitInv N W s) (hW : 1 ≤ W)
    (hall : all_returned s) :
    s.current_password_index = N ∧ s.writes.Perm (List.range N) ∧
    (∀ pw ∈ s.passwords, pw.checked = true) := by
  have hplace : ∀ (w : Nat) (q : Place), s.workers[w]? = some q → q = Place.returned :=
    fun w q h => hall q (List.mem_iff_getElem?.2 ⟨w, h⟩)
  have h0 : s.workers[0]? = some Place.returned := by
    have hlt : 0 < s.workers.length := by rw [hinv.workers_len]; exact hW
    rw [List.getElem?_eq_getElem hlt]
    exact congrArg some (hplace 0 _ (List.getElem?_eq_getElem hlt))
  have hcur : s.current_password_index = N := hinv.finished 0 (Or.inr h0)
  have hwritten : ∀ idx, idx < N → idx ∈ s.writes := by
    intro idx hlt
    rcases hinv.cover idx (by rw [hcur]; exact hlt) with h | ⟨w, h⟩
    · exact h
    · exact Place.noConfusion (hplace w _ h)
  refine ⟨hcur, ?_, ?_⟩
  · rw [List.perm_ext_iff_of_nodup hinv.writes_nodup (List.nodup_range N)]
    intro a
    rw [List.mem_range]
    constructor
    · intro h
      have := hinv.writes_lt a h
      omega
    · exact hwritten a
  · intro pw hpw
    obtain ⟨idx, hidx⟩ := List.mem_iff_getElem?.1 hpw
    have hlt : idx < N := by
      rw [← hinv.len]
      exact (List.getElem?_eq_some.1 hidx).1
    obtain ⟨pw2, h2, hc⟩ := hinv.writes_checked idx (hwritten idx hlt)
    rw [hidx] at h2
    injection h2 with h2
    rw [h2]
    exact hc

theorem claimed_by_one (claims : List (Nat × Nat)) (n : Nat)
    (h : claims.map Prod.snd = List.range n) (idx : Nat) (hidx : idx < n) :
    ∃! w, (w, idx) ∈ claims := by
  have hmem : idx ∈ claims.map Prod.snd := by
    rw [h]
    exact List.mem_range.2 hidx
  obtain ⟨⟨w, i⟩, hin, hi⟩ := List.mem_map.1 hmem
  simp only at hi
  subst hi
  refine ⟨w, hin, ?_⟩
  intro w2 h2
  have hnd : (claims.map Prod.snd).Nodup := by
    rw [h]
    exact List.nodup_range n
  have := List.inj_on_of_nodup_map hnd h2 hin rfl
  exact congrArg Prod.fst this

/-- C6: `W >= 1` worker loops of a dry run share one claim cursor over a chunk of `N`
records, with no interruption.  Whatever sequence of resumptions at the suspension points
leads to a state `s`: the indices claimed so far are `0, 1, ..., cursor - 1`, each claimed
once and by one loop, and no record was written twice; the schedule has at most
`4 * W + 2 * N` steps, and as long as a loop has not returned a step is possible, so every
interleaving comes to the state in which all loops have returned; and in that state the
cursor is `N`, every index below `N` was claimed by exactly one loop, the records written
are `0, ..., N - 1`, each exactly once, and every record has `checked = true`. -/
theorem dry_run_exactly_once (SHA1 : List Char → digest_t) (passwords : List Password)
    (progress : Progress) (cache : Cache) (W : Nat) (hW : 1 ≤ W) (choices : List Nat)
    (s : UnitState)
    (hrun : run_schedule SHA1 (unit_start passwords progress cache W) choices = some s) :
    s.claims.map Prod.snd = List.range s.current_password_index ∧
    (∀ idx, idx < s.current_password_index → ∃! w, (w, idx) ∈ s.claims) ∧
    s.writes.Nodup ∧ (∀ idx ∈ s.writes, idx < s.current_password_index) ∧
    choices.length ≤ 4 * W + 2 * passwords.length ∧
    (¬ all_returned s → ∃ w s2, unit_step SHA1 s w = some s2) ∧
    (all_returned s →
      s.current_password_index = passwords.length ∧
      (∀ idx, idx < passwords.length → ∃! w, (w, idx) ∈ s.claims) ∧
      s.writes.Perm (List.range passwords.length) ∧
      s.passwords.length = passwords.length ∧
      (∀ pw ∈ s.passwords, pw.checked = true)) := by
  obtain ⟨hinv, hsteps⟩ := inv_run_schedule SHA1 passwords.length W choices _ s
    (inv_start passwords progress cache W) hrun
  rw [steps_left_start] at hsteps
  refine ⟨hinv.claimed, claimed_by_one _ _ hinv.claimed, hinv.writes_nodup, hinv.writes_lt,
    by omega, unit_progress SHA1 _ W s hinv, ?_⟩
  intro hall
  obtain ⟨hcur, hperm, hchecked⟩ := inv_all_returned _ W s hinv hW hall
  refine ⟨hcur, ?_, hperm, hinv.len, hchecked⟩
  intro idx hidx
  exact claimed_by_one _ _ hinv.claimed idx (by rw [hcur]; exact hidx)

theorem example_schedule_runs :
    run_schedule example_SHA1 (unit_start example_chunk Progress.zero
      (Cache.hex HexCache.empty) 2) example_schedule = some example_final := by
  decide

theorem dry_run_exactly_once_witness :
    all_returned example_final ∧ example_final.current_password_index = 3 ∧
    example_final.writes.Perm (List.range 3) ∧
    (∀ pw ∈ example_final.passwords, pw.checked = true) :=
  have h := dry_run_exactly_once example_SHA1 example_chunk Progress.zero
    (Cache.hex HexCache.empty) 2 (by decide) example_schedule example_final
    example_schedule_runs
  have hall : all_returned example_final := by decide
  ⟨hall, (h.2.2.2.2.2.2 hall).1, (h.2.2.2.2.2.2 hall).2.2.1, (h.2.2.2.2.2.2 hall).2.2.2.2⟩

/-! ## main.cpp: the offsets of the chunks -/

/-- A chunk that holds a record lies inside the list: for `i < T`, when chunk `i` is not
empty its offset and its end are at most `N`. -/
theorem nonempty_chunk_inside (N T : Nat) (hT : 1 ≤ T) (hfit : N + T ≤ 2 ^ 64) (i : Nat)
    (hi : i < T) (hne : 0 < (chunk_of N T i).2) :
    (chunk_of N T i).1 + (chunk_of N T i).2 ≤ N ∧
    subspan_precondition N (chunk_of N T i).1 (chunk_of N T i).2 := by
  rw [chunk_of_eq N T hT hfit i hi] at hne ⊢
  simp only at hne ⊢
  have h1 := Nat.min_le_right ((N + T - 1) / T) (N - (N + T - 1) / T * i)
  unfold subspan_precondition
  omega

/-- C14, what the code does: for 5 records and 4 threads `chunk_size` is 2 and the chunks
are `(0, 2), (2, 2), (4, 1), (6, 0)`: the fourth call is `subspan(6, 0)` on a span of 5
records, with an offset past the end of the list, outside the precondition of `subspan`,
and the fourth chunk does not start where the third one ended. -/
theorem chunk_offset_past_end :
    chunk_size 5 4 = 2 ∧
    (main_chunks 5 4).1 = [(0, 2), (2, 2), (4, 1), (6, 0)] ∧
    chunk_of 5 4 3 = (6, 0) ∧
    ¬ (chunk_of 5 4 3).1 ≤ 5 ∧
    ¬ (chunk_of 5 4 3).1 + (chunk_of 5 4 3).2 ≤ 5 ∧
    ¬ subspan_precondition 5 (chunk_of 5 4 3).1 (chunk_of 5 4 3).2 ∧
    (chunk_of 5 4 2).1 + (chunk_of 5 4 2).2 ≠ (chunk_of 5 4 3).1 := by
  decide

/-! ## main.cpp: a response that closes the connection -/

theorem after_exchange_close (net : Network) (st : LoopState) (idx : Nat) (pfx : hexprefix_t)
    (suffix : hexsuffix_t) (rr : RangeResults) :
    (after_exchange net st idx pfx suffix rr true none).progress.m_connections_reset
      = st.progress.m_connections_reset + 1 ∧
    (after_exchange net st idx pfx suffix rr true none).trace.closes = st.trace.closes + 1 ∧
    (after_exchange net st idx pfx suffix rr true none).trace.opens = st.trace.opens + 1 ∧
    (after_exchange net st idx pfx suffix rr true none).trace.puts
      = st.trace.puts ++ [(pfx, rr.values)] ∧
    (after_exchange net st idx pfx suffix rr true none).progress.m_passwords_checked
      = st.progress.m_passwords_checked + 1 ∧
    (after_exchange net st idx pfx suffix rr true none).progress.m_bytes_downloaded
      = st.progress.m_bytes_downloaded + rr.body_size ∧
    (after_exchange net st idx pfx suffix rr true none).progress.m_requests_timed_out
      = st.progress.m_requests_timed_out ∧
    (after_exchange net st idx pfx suffix rr true none).progress.m_requests_errored
      = st.progress.m_requests_errored := by
  simp [after_exchange, record_result, Progress.add_connection_reset,
    Progress.password_checked]

/-- C12: a record whose exchange succeeds with the status 200 and the header
`Connection: close` makes the pass add exactly one to `connections_reset`, call
`close_stream` once and `get_stream` once, call `cache.put` with the record's prefix and the
whole response set (a `HexCache` then holds that set under the prefix), and write the record
with `checked = true` and the count the response lists for its suffix, `0` when it lists
none; the loop goes on. -/
theorem forced_close_keeps_record (SHA1 : List Char → digest_t) (net : Network)
    (st : LoopState) (pw : Password) (values : values_t)
    (hint : net.interrupted st.current_password_index = false)
    (hget : st.passwords.get? st.current_password_index = some pw)
    (hmiss : (st.cache.get (Digest.make SHA1 pw.value)).1.1 = EntryStatus.Uncached)
    (h1 : (exchange_for SHA1 net st pw).write_ec = none)
    (h2 : (exchange_for SHA1 net st pw).read_ec = none)
    (h3 : (exchange_for SHA1 net st pw).response.result_int = 200)
    (hclose : (exchange_for SHA1 net st pw).response.connection = "close".toList)
    (hparse : to_range_results_values (exchange_for SHA1 net st pw).uninit
      (exchange_for SHA1 net st pw).response.body = Except.ok values) :
    ∃ st2, loop_body SHA1 false net st = Step.next st2 ∧
      st2.progress.m_connections_reset = st.progress.m_connections_reset + 1 ∧
      st2.trace.closes = st.trace.closes + 1 ∧
      st2.trace.opens = st.trace.opens + 1 ∧
      st2.trace.puts = st.trace.puts ++
        [(( Digest.extract_hex_prefix (Digest.make SHA1 pw.value)), values)] ∧
      st2.cache = st.cache.put ( Digest.extract_hex_prefix (Digest.make SHA1 pw.value)) values ∧
      (∀ c : HexCache, st.cache = Cache.hex c → ∃ c2 : HexCache, st2.cache = Cache.hex c2 ∧
        map_find c2.m_cache ( Digest.extract_hex_prefix (Digest.make SHA1 pw.value))
          = some values) ∧
      st2.passwords.get? st.current_password_index
        = some { value := pw.value
                 count := count_of values (Digest.make SHA1 pw.value).extract_hex_suffix
                 checked := true } ∧
      (map_find values (Digest.make SHA1 pw.value).extract_hex_suffix = none →
        count_of values (Digest.make SHA1 pw.value).extract_hex_suffix = 0) ∧
      (∀ v : Int, map_find values (Digest.make SHA1 pw.value).extract_hex_suffix = some v →
        count_of values (Digest.make SHA1 pw.value).extract_hex_suffix = size_t_of_int v ∧
        (0 ≤ v → v < 2 ^ 64 → (size_t_of_int v : Int) = v)) ∧
      st2.progress.m_passwords_checked = st.progress.m_passwords_checked + 1 ∧
      st2.progress.m_requests_timed_out = st.progress.m_requests_timed_out ∧
      st2.progress.m_requests_errored = st.progress.m_requests_errored ∧
      st2.current_password_index = st.current_password_index + 1 := by
  have hreq : request_range (exchange_for SHA1 net st pw) = Except.ok
      (({ values := values, body_size := (exchange_for SHA1 net st pw).response.payload_size },
        true), none) := by
    rw [request_range_200 _ h1 h2 h3, hparse, hclose]
    rfl
  have hbody := loop_body_miss SHA1 net st pw hint hget hmiss
  rw [hreq] at hbody
  simp only at hbody
  have hc := after_exchange_close net (at_request SHA1 st pw) st.current_password_index
    ( Digest.extract_hex_prefix (Digest.make SHA1 pw.value))
    (Digest.make SHA1 pw.value).extract_hex_suffix
    { values := values, body_size := (exchange_for SHA1 net st pw).response.payload_size }
  have hf := after_exchange_frame net (at_request SHA1 st pw) st.current_password_index
    ( Digest.extract_hex_prefix (Digest.make SHA1 pw.value))
    (Digest.make SHA1 pw.value).extract_hex_suffix
    { values := values, body_size := (exchange_for SHA1 net st pw).response.payload_size }
    true none
  have hcache := after_exchange_cache net (at_request SHA1 st pw) st.current_password_index
    ( Digest.extract_hex_prefix (Digest.make SHA1 pw.value))
    (Digest.make SHA1 pw.value).extract_hex_suffix
    { values := values, body_size := (exchange_for SHA1 net st pw).response.payload_size }
    true
  have hpw := after_exchange_passwords net (at_request SHA1 st pw) st.current_password_index
    ( Digest.extract_hex_prefix (Digest.make SHA1 pw.value))
    (Digest.make SHA1 pw.value).extract_hex_suffix
    { values := values, body_size := (exchange_for SHA1 net st pw).response.payload_size }
    true none
  have hcache2 : (at_request SHA1 st pw).cache = st.cache := Cache_get_miss _ _ hmiss
  refine ⟨_, hbody, hc.1, hc.2.1, hc.2.2.1, hc.2.2.2.1, ?_, ?_, ?_, ?_, ?_, hc.2.2.2.2.1,
    hc.2.2.2.2.2.2.1, hc.2.2.2.2.2.2.2, hf.1⟩
  · rw [hcache, hcache2]
  · intro c hcc
    refine ⟨c.put ( Digest.extract_hex_prefix (Digest.make SHA1 pw.value)) values, ?_, ?_⟩
    · rw [hcache, hcache2, hcc]
      rfl
    · simp only [HexCache.put, map_find_assign_self]
  · rw [hpw]
    exact modify_get _ _ _ pw hget
  · intro hnone
    simp [count_of, hnone, size_t_of_int]
  · intro v hv
    exact ⟨by simp [count_of, hv], size_t_of_int_nonneg v⟩

theorem forced_close_keeps_record_witness :
    ∃ st2, loop_body example_SHA1 false (network_answering exchange_close) example_state
        = Step.next st2 ∧
      st2.progress.m_connections_reset = 1 ∧ st2.trace.closes = 1 ∧ st2.trace.opens = 2 ∧
      st2.passwords.get? 0 = some { value := "abc".toList, count := 5, checked := true } := by
  obtain ⟨st2, h⟩ := forced_close_keeps_record example_SHA1 (network_answering exchange_close)
    example_state { value := "abc".toList, count := 0, checked := false }
    [("2030405060708090A0B0C0D0E0F10111213".toList, 5)] rfl rfl (by decide) rfl rfl rfl rfl
    (by rfl)
  refine ⟨st2, h.1, h.2.1, h.2.2.1, h.2.2.2.1, ?_⟩
  have hcount : count_of [("2030405060708090A0B0C0D0E0F10111213".toList, (5 : Int))]
      (Digest.make example_SHA1 "abc".toList).extract_hex_suffix = 5 := by decide
  have := h.2.2.2.2.2.2.2.1
  rw [hcount] at this
  exact this

/-! ## password.cpp: `trim` and `read_passwords` -/

theorem takeWhile_ne_newline (l rest : List Char) (hl : '\n' ∉ l) :
    (l ++ '\n' :: rest).takeWhile (fun x => x != '\n') = l ∧
    (l ++ '\n' :: rest).dropWhile (fun x => x != '\n') = '\n' :: rest := by
  induction l with
  | nil => simp
  | cons a tl ih =>
    simp only [List.mem_cons, not_or] at hl
    have ha : (a != '\n') = true := by
      simp only [bne_iff_ne, ne_eq]
      exact fun e => hl.1 e.symm
    simp only [List.cons_append, List.takeWhile_cons, List.dropWhile_cons, ha, if_true]
    exact ⟨by rw [(ih hl.2).1], (ih hl.2).2⟩

theorem getline_line (l rest : List Char) (hl : '\n' ∉ l) :
    getline (l ++ '\n' :: rest) = some (l, rest) := by
  have h := takeWhile_ne_newline l rest hl
  cases hc : l ++ '\n' :: rest with
  | nil => simp at hc
  | cons c cs =>
    simp only [getline]
    rw [← hc, h.1, h.2]
    rfl

theorem getline_last (l : List Char) (hl : '\n' ∉ l) (hne : l ≠ []) :
    getline l = some (l, []) := by
  have h1 : l.takeWhile (fun x => x != '\n') = l := by
    apply takeWhile_all
    intro x hx
    simp only [bne_iff_ne, ne_eq]
    intro e
    exact hl (e ▸ hx)
  have h2 : l.dropWhile (fun x => x != '\n') = [] := by
    have := List.takeWhile_append_dropWhile (fun x => x != '\n') l
    rw [h1] at this
    exact List.append_right_eq_self.1 this
  cases hc : l with
  | nil => exact absurd hc hne
  | cons c cs =>
    simp only [getline]
    rw [← hc, h1, h2]
    rfl

theorem read_passwords_loop_lines (lines : List (List Char)) (hl : ∀ l ∈ lines, '\n' ∉ l) :
    ∀ (fuel : Nat) (acc : List Password), lines.length + 1 ≤ fuel →
      read_passwords_loop fuel (file_of_lines lines) acc = acc ++ lines.map record_of_line := by
  induction lines with
  | nil =>
    intro fuel acc hf
    cases fuel with
    | zero => exact absurd hf (by simp)
    | succ k => simp [read_passwords_loop, file_of_lines, getline]
  | cons l tl ih =>
    intro fuel acc hf
    cases fuel with
    | zero => exact absurd hf (by simp)
    | succ k =>
      have hfile : file_of_lines (l :: tl) = l ++ '\n' :: file_of_lines tl := by
        simp [file_of_lines]
      simp only [read_passwords_loop]
      rw [hfile, getline_line l _ (hl l (List.mem_cons_self _ _))]
      simp only
      rw [ih (fun x hx => hl x (List.mem_cons_of_mem _ hx)) k _
        (by simp only [List.length_cons] at hf; omega)]
      simp [record_of_line]

theorem read_passwords_loop_unterminated (lines : List (List Char)) (last : List Char)
    (hl : ∀ l ∈ lines, '\n' ∉ l) (hlast : '\n' ∉ last) (hne : last ≠ []) :
    ∀ (fuel : Nat) (acc : List Password), lines.length + 2 ≤ fuel →
      read_passwords_loop fuel (file_of_lines lines ++ last) acc
        = acc ++ (lines ++ [last]).map record_of_line := by
  induction lines with
  | nil =>
    intro fuel acc hf
    cases fuel with
    | zero => exact absurd hf (by simp)
    | succ k =>
      cases k with
      | zero => exact absurd hf (by simp)
      | succ j =>
        simp only [read_passwords_loop, file_of_lines, List.flatMap_nil, List.nil_append,
          getline_last last hlast hne]
        simp [getline, record_of_line]
  | cons l tl ih =>
    intro fuel acc hf
    cases fuel with
    | zero => exact absurd hf (by simp)
    | succ k =>
      have hfile : file_of_lines (l :: tl) ++ last = l ++ '\n' :: (file_of_lines tl ++ last) := by
        simp [file_of_lines]
      simp only [read_passwords_loop]
      rw [hfile, getline_line l _ (hl l (List.mem_cons_self _ _))]
      simp only
      rw [ih (fun x hx => hl x (List.mem_cons_of_mem _ hx)) k _
        (by simp only [List.length_cons] at hf; omega)]
      simp [record_of_line]

theorem file_of_lines_length (lines : List (List Char)) :
    lines.length ≤ (file_of_lines lines).length := by
  induction lines with
  | nil => simp
  | cons l tl ih =>
    have hfile : file_of_lines (l :: tl) = l ++ '\n' :: file_of_lines tl := by
      simp [file_of_lines]
    rw [hfile]
    simp only [List.length_cons, List.length_append]
    omega

theorem head_dropWhile (p : Char → Bool) (l : List Char) (c : Char)
    (h : (l.dropWhile p).head? = some c) : p c = false := by
  induction l with
  | nil => simp at h
  | cons a tl ih =>
    rw [List.dropWhile_cons] at h
    split at h
    · exact ih h
    · rename_i hp
      simp only [List.head?_cons, Option.some.injEq] at h
      rw [← h]
      simpa using hp

theorem trim_decompose (l : List Char) :
    l = l.takeWhile isspace ++ (trim l ++
      (((l.dropWhile isspace).reverse.takeWhile isspace).reverse)) := by
  have h1 := List.takeWhile_append_dropWhile isspace l
  have h2 := List.takeWhile_append_dropWhile isspace (l.dropWhile isspace).reverse
  have h3 : l.dropWhile isspace = trim l ++
      (((l.dropWhile isspace).reverse.takeWhile isspace).reverse) := by
    have := congrArg List.reverse h2
    rw [List.reverse_append, List.reverse_reverse] at this
    exact this.symm
  rw [← h3, h1]

theorem trim_spec (l : List Char) :
    (∃ pre post, l = pre ++ (trim l ++ post) ∧ (∀ c ∈ pre, isspace c = true) ∧
      (∀ c ∈ post, isspace c = true)) ∧
    (∀ c, (trim l).head? = some c → isspace c = false) ∧
    (∀ c, (trim l).getLast? = some c → isspace c = false) ∧
    (trim l = [] ↔ ∀ c ∈ l, isspace c = true) := by
  have hdec := trim_decompose l
  have hs1 : l.dropWhile isspace = trim l ++
      (((l.dropWhile isspace).reverse.takeWhile isspace).reverse) := by
    have h1 := List.takeWhile_append_dropWhile isspace l
    have := hdec
    nth_rewrite 1 [← h1] at this
    exact List.append_cancel_left this
  refine ⟨⟨_, _, hdec, ?_, ?_⟩, ?_, ?_, ?_⟩
  · intro c hc
    exact List.mem_takeWhile_imp hc
  · intro c hc
    rw [List.mem_reverse] at hc
    exact List.mem_takeWhile_imp hc
  · intro c hc
    apply head_dropWhile isspace l c
    rw [hs1]
    cases ht : trim l with
    | nil => rw [ht] at hc; simp at hc
    | cons a tl =>
      rw [ht] at hc
      simpa using hc
  · intro c hc
    apply head_dropWhile isspace (l.dropWhile isspace).reverse c
    unfold trim at hc
    simp only [List.getLast?_reverse] at hc
    exact hc
  · constructor
    · intro ht
      have hs1nil : l.dropWhile isspace = [] := by
        cases hd : l.dropWhile isspace with
        | nil => rfl
        | cons a tl =>
          have ha : isspace a = false := head_dropWhile isspace l a (by rw [hd]; rfl)
          have hall : ∀ x ∈ (l.dropWhile isspace).reverse, isspace x = true := by
            apply List.dropWhile_eq_nil_iff.1
            unfold trim at ht
            simpa using ht
          have := hall a (by rw [hd]; simp)
          rw [ha] at this
          exact absurd this (by simp)
      exact List.dropWhile_eq_nil_iff.1 hs1nil
    · intro hall
      have : l.dropWhile isspace = [] := List.dropWhile_eq_nil_iff.2 hall
      simp [trim, this]

/-- C11 (as the code behaves): for every sequence of input lines, written to the file with
a line feed after each (or with none after a last line that is not empty),
`read_passwords` returns one record per line, in line order; the value of a record is its
line with the leading and the trailing white space removed, its count is `0` and `checked`
is `false`.  The value is empty exactly when the line is empty or holds white space only:
such a line gives a record too. -/
theorem read_passwords_records (lines : List (List Char)) (hl : ∀ l ∈ lines, '\n' ∉ l) :
    read_passwords (file_of_lines lines) = lines.map record_of_line ∧
    (∀ last : List Char, '\n' ∉ last → last ≠ [] →
      read_passwords (file_of_lines lines ++ last) = (lines ++ [last]).map record_of_line) ∧
    (read_passwords (file_of_lines lines)).length = lines.length ∧
    (∀ l : List Char, (record_of_line l).count = 0 ∧ (record_of_line l).checked = false ∧
      (record_of_line l).value = trim l ∧
      (∃ pre post, l = pre ++ (trim l ++ post) ∧ (∀ c ∈ pre, isspace c = true) ∧
        (∀ c ∈ post, isspace c = true)) ∧
      (∀ c, (trim l).head? = some c → isspace c = false) ∧
      (∀ c, (trim l).getLast? = some c → isspace c = false) ∧
      ((record_of_line l).value = [] ↔ ∀ c ∈ l, isspace c = true)) := by
  have h1 : read_passwords (file_of_lines lines) = lines.map record_of_line := by
    unfold read_passwords
    rw [read_passwords_loop_lines lines hl _ []
      (by have := file_of_lines_length lines; omega)]
    rfl
  refine ⟨h1, ?_, by rw [h1, List.length_map], ?_⟩
  · intro last hlast hne
    unfold read_passwords
    rw [read_passwords_loop_unterminated lines last hl hlast hne _ []
      (by
        have := file_of_lines_length lines
        have : 0 < last.length := List.length_pos.2 hne
        simp only [List.length_append]
        omega)]
    rfl
  · intro l
    have ht := trim_spec l
    exact ⟨rfl, rfl, rfl, ht.1, ht.2.1, ht.2.2.1, ht.2.2.2⟩

theorem read_passwords_records_witness :
    read_passwords (file_of_lines [" abc ".toList, "xyz".toList])
      = [" abc ".toList, "xyz".toList].map record_of_line :=
  (read_passwords_records [" abc ".toList, "xyz".toList] (by decide)).1

/-- C11, the claim fails: a file with an empty line and a line of blanks gives records with
the empty value. -/
theorem read_passwords_empty_value :
    read_passwords "abc\n\n  \nxyz\n".toList
      = [{ value := "abc".toList, count := 0, checked := false },
          { value := [], count := 0, checked := false },
          { value := [], count := 0, checked := false },
          { value := "xyz".toList, count := 0, checked := false }] ∧
    ¬ ∀ pw ∈ read_passwords "abc\n\n  \nxyz\n".toList, pw.value ≠ [] := by
  decide

/-! ## request.cpp: the indices of the writes -/

theorem write_trace_colon (k : Nat) (pc : Bool) (cb : Option (List Char)) (rest : List Char) :
    write_trace k pc cb (':' :: rest) = write_trace 0 true cb rest := by
  simp [write_trace]

theorem write_trace_suffix_char (k : Nat) (cb : Option (List Char)) (c : Char)
    (rest : List Char) (h1 : c ≠ '\n') (h2 : c ≠ ':') :
    write_trace k false cb (c :: rest)
      = BufferWrite.suffix k c ::
          write_trace (k + 1) false (if k < 35 then cb else none) rest := by
  simp [write_trace, h1, h2]

theorem write_trace_count_char (k : Nat) (cb : Option (List Char)) (c : Char)
    (rest : List Char) (h1 : c ≠ '\n') (h2 : c ≠ ':') :
    write_trace k true cb (c :: rest)
      = BufferWrite.count k c :: write_trace (k + 1) true (count_buffer_after cb k c) rest := by
  simp [write_trace, h1, h2]

theorem write_trace_newline_head (k : Nat) (pc : Bool) (cb : Option (List Char))
    (rest : List Char) : BufferWrite.count k NUL ∈ write_trace k pc cb ('\n' :: rest) := by
  simp [write_trace]

theorem write_trace_newline_mem (k : Nat) (pc : Bool) (cb : Option (List Char))
    (rest : List Char) :
    ∀ w ∈ write_trace k pc cb ('\n' :: rest),
      w = BufferWrite.count k NUL ∨ ∃ cb2, w ∈ write_trace 0 false cb2 rest := by
  intro w hw
  simp only [write_trace, if_true, List.mem_cons] at hw
  rcases hw with hw | hw
  · exact Or.inl hw
  · split at hw
    · exact absurd hw (List.not_mem_nil _)
    · rename_i b _
      split at hw
      · exact Or.inr ⟨some b, hw⟩
      · exact absurd hw (List.not_mem_nil _)

theorem write_trace_newline_ok (k : Nat) (pc : Bool) (b b2 : List Char) (n : Int)
    (rest : List Char) (h1 : string_write b k NUL = Except.ok b2)
    (h2 : stoi b2 = Except.ok n) :
    write_trace k pc (some b) ('\n' :: rest)
      = BufferWrite.count k NUL :: write_trace 0 false (some b2) rest := by
  simp [write_trace, count_buffer_after, h1, h2]

theorem write_trace_suffix_run (s rest : List Char) (hs : ∀ c ∈ s, c ≠ '\n' ∧ c ≠ ':') :
    ∀ (k : Nat) (cb : Option (List Char)), ∃ cb2, write_trace k false cb (s ++ rest)
      = (s.enumFrom k).map (fun ic => BufferWrite.suffix ic.1 ic.2)
        ++ write_trace (k + s.length) false cb2 rest := by
  induction s with
  | nil => intro k cb; exact ⟨cb, by simp⟩
  | cons c tl ih =>
    intro k cb
    have hc := hs c (List.mem_cons_self _ _)
    obtain ⟨cb2, h⟩ := ih (fun x hx => hs x (List.mem_cons_of_mem _ hx)) (k + 1)
      (if k < 35 then cb else none)
    refine ⟨cb2, ?_⟩
    rw [List.cons_append, write_trace_suffix_char k cb c _ hc.1 hc.2, h]
    have e : k + 1 + tl.length = k + (tl.length + 1) := by omega
    simp [List.enumFrom_cons, e]

theorem write_trace_count_run (s rest : List Char) (hs : ∀ c ∈ s, c ≠ '\n' ∧ c ≠ ':') :
    ∀ (k : Nat) (cb : Option (List Char)), ∃ cb2, write_trace k true cb (s ++ rest)
      = (s.enumFrom k).map (fun ic => BufferWrite.count ic.1 ic.2)
        ++ write_trace (k + s.length) true cb2 rest := by
  induction s with
  | nil => intro k cb; exact ⟨cb, by simp⟩
  | cons c tl ih =>
    intro k cb
    have hc := hs c (List.mem_cons_self _ _)
    obtain ⟨cb2, h⟩ := ih (fun x hx => hs x (List.mem_cons_of_mem _ hx)) (k + 1)
      (count_buffer_after cb k c)
    refine ⟨cb2, ?_⟩
    rw [List.cons_append, write_trace_count_char k cb c _ hc.1 hc.2, h]
    have e : k + 1 + tl.length = k + (tl.length + 1) := by omega
    simp [List.enumFrom_cons, e]

theorem count_field_chars (l : BodyLine) (hl : l.conforms) :
    ∀ c ∈ l.count_field, c ≠ '\n' ∧ c ≠ ':' := by
  intro c hc
  unfold BodyLine.count_field at hc
  rw [List.mem_append] at hc
  rcases hc with hc | hc
  · have hd := hl.2.2.2 c hc
    constructor <;> rintro rfl <;> revert hd <;> decide
  · split at hc
    · rw [List.mem_singleton] at hc
      rw [hc]
      decide
    · exact absurd hc (List.not_mem_nil _)

theorem write_trace_line (l : BodyLine) (hl : l.conforms) (rest : List Char)
    (cb : Option (List Char)) :
    ∀ w ∈ write_trace 0 false cb (l.text ++ rest),
      w ∈ line_writes l ∨ ∃ cb2, w ∈ write_trace 0 false cb2 rest := by
  have htext : l.text ++ rest = l.suffix ++ (':' :: (l.count_field ++ ('\n' :: rest))) := by
    simp [BodyLine.text]
  obtain ⟨cb1, h1⟩ := write_trace_suffix_run l.suffix
    (':' :: (l.count_field ++ ('\n' :: rest))) hl.2.1 0 cb
  obtain ⟨cb2, h2⟩ := write_trace_count_run l.count_field ('\n' :: rest)
    (count_field_chars l hl) 0 cb1
  intro w hw
  rw [htext, h1, write_trace_colon, h2] at hw
  simp only [List.mem_append, Nat.zero_add] at hw
  rcases hw with hw | hw | hw
  · left
    unfold line_writes
    exact List.mem_append_left _ hw
  · left
    unfold line_writes
    exact List.mem_append_right _ (List.mem_append_left _ hw)
  · rcases write_trace_newline_mem _ _ _ _ w hw with hw | hw
    · left
      unfold line_writes
      rw [hw]
      simp
    · exact Or.inr hw

theorem write_trace_body (lines : List BodyLine) (hl : ∀ l ∈ lines, l.conforms) :
    ∀ (cb : Option (List Char)), ∀ w ∈ write_trace 0 false cb (body_of_lines lines),
      ∃ l ∈ lines, w ∈ line_writes l := by
  induction lines with
  | nil =>
    intro cb w hw
    simp [body_of_lines, write_trace] at hw
  | cons l tl ih =>
    intro cb w hw
    have hb : body_of_lines (l :: tl) = l.text ++ body_of_lines tl := by
      simp [body_of_lines]
    rw [hb] at hw
    rcases write_trace_line l (hl l (List.mem_cons_self _ _)) _ cb w hw with h | ⟨cb2, h⟩
    · exact ⟨l, List.mem_cons_self _ _, h⟩
    · obtain ⟨l2, hl2, hw2⟩ := ih (fun x hx => hl x (List.mem_cons_of_mem _ hx)) cb2 w h
      exact ⟨l2, List.mem_cons_of_mem _ hl2, hw2⟩

theorem line_writes_suffix (l : BodyLine) (hl : l.conforms) (pos : Nat) (c : Char)
    (hw : BufferWrite.suffix pos c ∈ line_writes l) : pos < 35 := by
  unfold line_writes at hw
  simp only [List.mem_append, List.mem_map, List.mem_singleton] at hw
  rcases hw with ⟨⟨i, c2⟩, hic, he⟩ | ⟨⟨i, c2⟩, _, he⟩ | he
  · injection he with e1 e2
    have := (List.mem_enum hic).1
    have h35 := hl.1
    simp only at e1
    omega
  · exact BufferWrite.noConfusion he
  · exact BufferWrite.noConfusion he

theorem line_writes_defined (l : BodyLine) (hl : l.conforms) (h10 : l.count_field.length ≤ 10) :
    ∀ w ∈ line_writes l, write_defined w ∧ within_buffers w := by
  intro w hw
  unfold line_writes at hw
  simp only [List.mem_append, List.mem_map, List.mem_singleton] at hw
  rcases hw with ⟨⟨i, c⟩, hic, rfl⟩ | ⟨⟨i, c⟩, hic, rfl⟩ | rfl
  · have := (List.mem_enum hic).1
    have h35 := hl.1
    simp only [write_defined, within_buffers]
    omega
  · have := (List.mem_enum hic).1
    simp only [write_defined, within_buffers]
    omega
  · refine ⟨?_, h10⟩
    rcases Nat.lt_or_eq_of_le h10 with h | h
    · exact Or.inl h
    · exact Or.inr ⟨h, rfl⟩

theorem to_range_results_values_eq (uninit : List Char) (body : List (List Char)) :
    to_range_results_values uninit body =
      (body.flatten.foldlM parse_char
        { range_values := [], suffix_buffer := uninit, count_buffer := List.replicate 10 NUL,
          pos := 0, parse_count := false }) >>= parse_end := by
  unfold to_range_results_values
  simp only []
  rw [foldlM_flatten]
  rfl

theorem stoi_not_undefined (s : List Char) :
    stoi s ≠ Except.error Abort.undefined_behaviour := by
  intro h
  unfold stoi at h
  simp only [] at h
  split_ifs at h <;> simp at h

theorem string_write_defined (b : List Char) (pos : Nat) (c : Char) (hlen : b.length = 10)
    (hw : write_defined (BufferWrite.count pos c)) :
    ∃ b2, string_write b pos c = Except.ok b2 ∧ b2.length = 10 := by
  unfold string_write
  rcases hw with h | ⟨h, hc⟩
  · rw [if_pos (by omega)]
    exact ⟨_, rfl, by simp [hlen]⟩
  · rw [if_neg (by omega), if_pos ⟨by omega, hc⟩]
    exact ⟨_, rfl, hlen⟩

theorem parse_defined (body : List Char) :
    ∀ st : ParseState, st.suffix_buffer.length = 35 → st.count_buffer.length = 10 →
      (∀ w ∈ write_trace st.pos st.parse_count (some st.count_buffer) body, write_defined w) →
      (body.foldlM parse_char st >>= parse_end) ≠ Except.error Abort.undefined_behaviour := by
  induction body with
  | nil =>
    intro st _ hcb hw
    show parse_end st ≠ _
    unfold parse_end
    split
    · rename_i hpos
      have hd : write_defined (BufferWrite.count st.pos NUL) :=
        hw _ (by simp [write_trace, hpos])
      obtain ⟨b2, hb2, _⟩ := string_write_defined st.count_buffer st.pos NUL hcb hd
      cases hs : stoi b2 with
      | error a =>
        simp only [store_line, hb2, hs, bind, Except.bind]
        intro h
        injection h with h
        rw [h] at hs
        exact stoi_not_undefined b2 hs
      | ok n =>
        simp only [store_line, hb2, hs, bind, Except.bind, pure, Except.pure]
        intro h
        exact Except.noConfusion h
    · intro h; exact Except.noConfusion h
  | cons c rest ih =>
    intro st hsb hcb hw
    rw [List.foldlM_cons]
    by_cases h1 : c = '\n'
    · subst h1
      have hd := hw _ (write_trace_newline_head _ _ _ _)
      obtain ⟨b2, hb2, hb2len⟩ := string_write_defined st.count_buffer st.pos NUL hcb hd
      rw [parse_char_newline]
      cases hs : stoi b2 with
      | error a =>
        have hsl : store_line st = Except.error a := by
          simp only [store_line, hb2, hs, bind, Except.bind]
        rw [hsl]
        intro h
        injection h with h
        rw [h] at hs
        exact stoi_not_undefined b2 hs
      | ok n =>
        have hsl : store_line st = Except.ok { st with
            count_buffer := b2
            range_values := map_assign st.range_values st.suffix_buffer n } := by
          simp only [store_line, hb2, hs, bind, Except.bind, pure, Except.pure]
        rw [hsl]
        rw [write_trace_newline_ok _ _ _ _ _ _ hb2 hs] at hw
        exact ih _ hsb hb2len (fun w hmem => hw w (List.mem_cons_of_mem _ hmem))
    · by_cases h2 : c = ':'
      · subst h2
        rw [write_trace_colon] at hw
        rw [parse_char_colon]
        exact ih { st with pos := 0, parse_count := true } hsb hcb hw
      · cases hpc : st.parse_count with
        | true =>
          rw [hpc, write_trace_count_char _ _ _ _ h1 h2] at hw
          have hd := hw _ (List.mem_cons_self _ _)
          obtain ⟨b2, hb2, hb2len⟩ := string_write_defined st.count_buffer st.pos c hcb hd
          have hp : parse_char st c = Except.ok
              { st with count_buffer := b2, pos := st.pos + 1 } := by
            rw [parse_char, if_neg h1, if_neg h2]
            simp [hpc, hb2, bind, Except.bind, pure, Except.pure]
          rw [hp]
          have hafter : count_buffer_after (some st.count_buffer) st.pos c = some b2 := by
            simp [count_buffer_after, hb2]
          rw [hafter] at hw
          exact ih { st with count_buffer := b2, pos := st.pos + 1 } hsb hb2len
            (by
              intro w hmem
              apply hw w
              apply List.mem_cons_of_mem
              simpa [hpc] using hmem)
        | false =>
          rw [hpc, write_trace_suffix_char _ _ _ _ h1 h2] at hw
          have hd : st.pos < 35 := hw _ (List.mem_cons_self _ _)
          rw [parse_char_suffix st c h1 h2 hpc (by omega)]
          rw [if_pos hd] at hw
          exact ih { st with suffix_buffer := st.suffix_buffer.set st.pos c, pos := st.pos + 1 }
            (by simp [hsb]) hcb
            (by
              intro w hmem
              apply hw w
              apply List.mem_cons_of_mem
              simpa [hpc] using hmem)

/-- Where the parser stays in its buffers: on a body in which every line is a suffix of 35
characters, a colon, a non-empty run of decimal digits and LF or CR LF, every write into
`suffix_buffer` is at an index below 35, and every write is one of those the lines ask for;
when the count field of every line has at most 10 characters before the line feed (at most
10 digits before LF, at most 9 before CR LF), every write is within the buffers and has
defined behaviour, and the parser does not return by undefined behaviour. -/
theorem conforming_writes (lines : List BodyLine) (hl : ∀ l ∈ lines, l.conforms)
    (body : List (List Char)) (hbody : body.flatten = body_of_lines lines) :
    (∀ (pos : Nat) (c : Char), BufferWrite.suffix pos c ∈ parser_writes body → pos < 35) ∧
    (∀ w ∈ parser_writes body, ∃ l ∈ lines, w ∈ line_writes l) ∧
    ((∀ l ∈ lines, l.count_field.length ≤ 10) →
      (∀ w ∈ parser_writes body, within_buffers w ∧ write_defined w) ∧
      ∀ uninit : List Char, uninit.length = 35 →
        to_range_results_values uninit body ≠ Except.error Abort.undefined_behaviour) := by
  have hmem : ∀ w ∈ parser_writes body, ∃ l ∈ lines, w ∈ line_writes l := by
    intro w hw
    unfold parser_writes at hw
    rw [hbody] at hw
    exact write_trace_body lines hl _ w hw
  refine ⟨?_, hmem, ?_⟩
  · intro pos c hw
    obtain ⟨l, hlmem, hlw⟩ := hmem _ hw
    exact line_writes_suffix l (hl l hlmem) pos c hlw
  · intro h10
    have hdef : ∀ w ∈ parser_writes body, within_buffers w ∧ write_defined w := by
      intro w hw
      obtain ⟨l, hlmem, hlw⟩ := hmem w hw
      exact (line_writes_defined l (hl l hlmem) (h10 l hlmem) w hlw).symm
    refine ⟨hdef, ?_⟩
    intro uninit hu
    rw [to_range_results_values_eq]
    exact parse_defined body.flatten
      { range_values := [], suffix_buffer := uninit, count_buffer := List.replicate 10 NUL,
        pos := 0, parse_count := false } hu (by simp) (fun w hw => (hdef w hw).2)

theorem conforming_writes_example :
    line_five_crlf.conforms ∧ line_five_crlf.count_field.length ≤ 10 ∧
    BufferWrite.count 2 NUL ∈ parser_writes [line_five_crlf.text] ∧
    within_buffers (BufferWrite.count 2 NUL) ∧ write_defined (BufferWrite.count 2 NUL) :=
  have h := conforming_writes [line_five_crlf] (by decide) [line_five_crlf.text] (by decide)
  have hmem : BufferWrite.count 2 NUL ∈ parser_writes [line_five_crlf.text] := by decide
  ⟨by decide, by decide, hmem, ((h.2.2 (by decide)).1 _ hmem).1,
    ((h.2.2 (by decide)).1 _ hmem).2⟩

/-- The writes end where `std::stoi` throws: on a body whose first line has the count
`9999999999` and whose second line has a count of eleven digits, the function is left at the
end of the first line and the second line is not written. -/
theorem writes_end_at_exception :
    to_range_results_values (List.replicate 35 NUL)
      [line_ten_nines.text, line_eleven_digits.text] = Except.error Abort.out_of_range ∧
    parser_writes [line_ten_nines.text, line_eleven_digits.text]
      = line_writes line_ten_nines ∧
    ∀ w ∈ parser_writes [line_ten_nines.text, line_eleven_digits.text], within_buffers w :=
  ⟨by rfl, by decide, by decide⟩

/-- C15, the code leaves its buffer: on a body of one line of the grammar whose count is
`INT_MAX` (ten digits) and whose line break is CR LF, the parser writes the ten digits at
the indices 0 to 9 of `count_buffer`, the carriage return at index 10, over the terminator,
and `'\0'` at index 11, outside the buffer; a line with a count of eleven digits and LF does
the same with its last digit.  Neither write has defined behaviour, the write at index 11
is not within the 10 characters and the terminator position, and the model of
`to_range_results_values` returns by undefined behaviour. -/
theorem count_buffer_overrun :
    line_int_max_crlf.conforms ∧
    parser_writes [line_int_max_crlf.text] = line_writes line_int_max_crlf ∧
    BufferWrite.count 10 '\r' ∈ parser_writes [line_int_max_crlf.text] ∧
    BufferWrite.count 11 NUL ∈ parser_writes [line_int_max_crlf.text] ∧
    to_range_results_values (List.replicate 35 NUL) [line_int_max_crlf.text]
      = Except.error Abort.undefined_behaviour ∧
    line_eleven_digits.conforms ∧
    BufferWrite.count 10 '1' ∈ parser_writes [line_eleven_digits.text] ∧
    BufferWrite.count 11 NUL ∈ parser_writes [line_eleven_digits.text] ∧
    to_range_results_values (List.replicate 35 NUL) [line_eleven_digits.text]
      = Except.error Abort.undefined_behaviour ∧
    ¬ write_defined (BufferWrite.count 10 '\r') ∧
    ¬ write_defined (BufferWrite.count 11 NUL) ∧
    ¬ within_buffers (BufferWrite.count 11 NUL) ∧
    ¬ (∀ w ∈ parser_writes [line_int_max_crlf.text], within_buffers w) ∧
    ¬ (∀ w ∈ parser_writes [line_eleven_digits.text], within_buffers w) :=
  ⟨by decide, by decide, by decide, by decide, by rfl, by decide, by decide, by decide,
    by rfl, by decide, by decide, by decide, by decide, by decide⟩

/-! ## The two caches behind one worker loop -/

theorem conforming_full_first_suffix (lines : List BodyLine) (hl : ∀ l ∈ lines, l.conforms)
    (body : List (List Char)) (hbody : body.flatten = body_of_lines lines) :
    full_first_suffix body := by
  cases lines with
  | nil =>
    left
    rw [hbody]
    rfl
  | cons l tl =>
    right
    have hc := hl l (List.mem_cons_self _ _)
    have hb : body.flatten = l.suffix ++ (':' :: (l.count_field ++ '\n' :: body_of_lines tl)) := by
      rw [hbody]
      simp [body_of_lines, BodyLine.text]
    have ht : body.flatten.take 35 = l.suffix := by
      rw [hb, List.take_append_of_le_length (by rw [hc.1]), List.take_of_length_le (by rw [hc.1])]
    refine ⟨?_, ?_⟩
    · rw [hb, List.length_append, hc.1]
      omega
    · rw [ht]
      exact hc.2.1

end PwnedPasswords
